import Mathlib

/-!
Shallow embedding of the rust-chess-engine repository (Aprax14/rust-chess-engine)
and verification of the frozen claims C1..C10.

The live crate (declared by src/main.rs) is `mod moves; mod types; mod utils;`.
The `components/` and `evaluator/` trees are superseded rewrites kept in the
repository; claim C10 is about `src/moves/generate.rs`, which builds on
`components/`.  Both families are embedded below:

* namespace `Chess`  — the live pipeline: `types/piece.rs`, `types/board.rs`,
  `moves/generator.rs`, `utils/static_evaluation.rs`, `utils/evaluation.rs`.
* namespace `ChessC` — the components pipeline: `components/pieces.rs`,
  `components/position.rs`, `components/board.rs`, `components/castle.rs`,
  `evaluator/utils.rs`, `moves/generate.rs`.

Machine integers are embedded as `Nat` (u64 bitboards, masked to 64 bits where
shifts can overflow) and `Int` (i32 scores; additions that could overflow are
wrapped with `wrap32`, matching two's-complement semantics).

Files `src/moves/attack.rs` and `src/types/constants.rs` are referenced by the
live code but are not present in the source tree.  `moves/attack.rs` exposes
exactly the function set implemented in `src/moves/generators.rs`
(white_pawn_attack, black_pawn_attack, white_pawn, black_pawn, knight, bishop,
rook, queen, king), so the generators below are translated from
`moves/generators.rs`; the bit masks of the missing constants file are forced
by their uses (wrap-around guards of §4.1 of the spec).  The evaluation
constants CENTRAL_MASK / SQUARES_VALUE / ATTACKED_SQUARE_ADVANTAGE /
ATTACKED_EMPTY_SQUARE_VALUE / CASTLING_VALUE / PROMOTION_VALUE and the search
types `Move`/`MoveVariant`/`Scenario::apply_move` (the shipped
`types/moves.rs` is a stale earlier revision that does not match its users)
are modelled from the spec, as flagged in their doc comments.
-/

namespace Chess

/-- Mask of a 64 bit word: bitboards are `Nat` values below `2 ^ 64`. -/
def M64 : Nat := 2 ^ 64 - 1

/-- u64 left shift: shift then truncate to 64 bits. -/
def shl (x n : Nat) : Nat := (x <<< n) &&& M64

/-- u64 right shift (never overflows). -/
def shr (x n : Nat) : Nat := x >>> n

/-- u64 bitwise complement. -/
def compl (x : Nat) : Nat := x ^^^ M64

/-- u64 wrapping sum of a list (the source sums bitboards with `Iterator::sum`). -/
def sum64 (l : List Nat) : Nat := (l.foldl (fun a b => a + b) 0) &&& M64

/-- Modelled from the spec: `types/constants.rs` and `components/constants.rs`
are missing from the source tree.  `NOT_A_RANK` is used as the wrap-around
guard clearing the A file (bits with index ≡ 7 mod 8, since bit 0 is H1 and
bit 63 is A8, as fixed by `From<(u8,u8)> for Bitboard` and the FEN parser). -/
def NOT_A_RANK : Nat := 0x7f7f7f7f7f7f7f7f

/-- Modelled from the spec: guard clearing the H file (bit indices ≡ 0 mod 8). -/
def NOT_H_RANK : Nat := 0xfefefefefefefefe

/-- Modelled from the spec: guard clearing the G file (bit indices ≡ 1 mod 8). -/
def NOT_G_RANK : Nat := 0xfdfdfdfdfdfdfdfd

/-- Modelled from the spec: guard clearing the B file (bit indices ≡ 6 mod 8). -/
def NOT_B_RANK : Nat := 0xbfbfbfbfbfbfbfbf

/-- Modelled from the spec: rank 2 mask (bits 8..15), white pawns' double-push rank. -/
def SECOND_ROW : Nat := 0xff00

/-- Modelled from the spec: rank 7 mask (bits 48..55), black pawns' double-push rank. -/
def SEVENTH_ROW : Nat := 0x00ff000000000000

/-- Modelled from the spec: rank 1 mask (bits 0..7). -/
def FIRST_ROW : Nat := 0xff

/-- Modelled from the spec: rank 8 mask (bits 56..63). -/
def EIGHT_ROW : Nat := 0xff00000000000000

/-- Lowest set bit of a u64 (`bits & bits.wrapping_neg()` in the source). -/
def lowBit (n : Nat) : Nat := n &&& ((2 ^ 64 - n) &&& M64)

/-- One step of `Bitboard::single_squares`: drop the lowest set bit. -/
def dropLow (n : Nat) : Nat := n &&& (n - 1)

/-- Fuelled core of `Bitboard::single_squares`: repeatedly extract the lowest
set bit.  64 units of fuel are enough for any u64 value, so this equals the
source loop, which terminates because each step clears one bit. -/
def single_squares_aux : Nat → Nat → List Nat
  | 0, _ => []
  | f + 1, n => if n = 0 then [] else lowBit n :: single_squares_aux f (dropLow n)

/-- `Bitboard::single_squares` of `types/piece.rs`: the single-bit bitboards of
a board, lowest bit first. -/
def single_squares (n : Nat) : List Nat := single_squares_aux 64 n

/-- Fuelled core of `Bitboard::count_bits` (popcount by clearing the lowest
set bit; 64 units of fuel are enough for a u64). -/
def count_bits_aux : Nat → Nat → Int
  | 0, _ => 0
  | f + 1, n => if n = 0 then 0 else count_bits_aux f (dropLow n) + 1

/-- `Bitboard::count_bits` of `types/piece.rs`. -/
def count_bits (n : Nat) : Int := count_bits_aux 64 n

/-- Fuelled floor log2: `offset = 63 - bits.leading_zeros()` in
`moves/generators.rs` equals the index of the highest set bit, i.e.
`Nat.log2`, for a nonzero u64.  Every call site passes a nonzero bitboard
(the Rust expression would underflow-panic on zero). -/
def log2w : Nat → Nat → Nat
  | 0, _ => 0
  | f + 1, n => if n ≤ 1 then 0 else log2w f (n >>> 1) + 1

/-- Index of the highest set bit of a (nonzero) u64. -/
def offsetOf (n : Nat) : Nat := log2w 64 n

/-!  Attack/move pattern generators, translated from `src/moves/generators.rs`
(the same function set the live code imports as `crate::moves::attack`). -/

/-- `generators::white_pawn_attack`: diagonal capture squares, restricted to
enemy-occupied squares (`black_pieces = u64::MAX` yields all attacked squares). -/
def white_pawn_attack (sp _blockers black_pieces : Nat) : Nat :=
  ((shl sp 7 &&& NOT_A_RANK) ||| (shl sp 9 &&& NOT_H_RANK)) &&& black_pieces

/-- `generators::black_pawn_attack`. -/
def black_pawn_attack (sp _blockers white_pieces : Nat) : Nat :=
  ((shr sp 7 &&& NOT_H_RANK) ||| (shr sp 9 &&& NOT_A_RANK)) &&& white_pieces

/-- `generators::white_pawn_quiet_moves`: single push, plus double push from
the second rank when both squares are free. -/
def white_pawn_quiet_moves (sp blockers : Nat) : Nat :=
  if sp &&& SECOND_ROW ≠ 0 then
    (shl sp 8 &&& compl blockers) |||
      (shl sp 16 &&& compl blockers &&& compl (shl blockers 8))
  else shl sp 8 &&& compl blockers

/-- `generators::black_pawn_quiet_moves`. -/
def black_pawn_quiet_moves (sp blockers : Nat) : Nat :=
  if sp &&& SEVENTH_ROW ≠ 0 then
    (shr sp 8 &&& compl blockers) |||
      (shr sp 16 &&& compl blockers &&& compl (shr blockers 8))
  else shr sp 8 &&& compl blockers

/-- `generators::white_pawn`: attacks onto enemies plus quiet pushes. -/
def white_pawn (sp blockers enemies : Nat) : Nat :=
  white_pawn_attack sp blockers enemies ||| white_pawn_quiet_moves sp blockers

/-- `generators::black_pawn`. -/
def black_pawn (sp blockers enemies : Nat) : Nat :=
  black_pawn_attack sp blockers enemies ||| black_pawn_quiet_moves sp blockers

/-- `generators::knight`: fixed-offset jumps with file wrap-around guards,
minus own-occupied squares. -/
def knight (sp blockers _enemies : Nat) : Nat :=
  ((shl sp 15 &&& NOT_A_RANK) ||| (shr sp 15 &&& NOT_H_RANK) |||
      (shl sp 17 &&& NOT_H_RANK) ||| (shr sp 17 &&& NOT_A_RANK) |||
      (shr sp 6 &&& NOT_H_RANK &&& NOT_G_RANK) |||
      (shl sp 6 &&& NOT_A_RANK &&& NOT_B_RANK) |||
      (shl sp 10 &&& NOT_H_RANK &&& NOT_G_RANK) |||
      (shr sp 10 &&& NOT_A_RANK &&& NOT_B_RANK)) &&& compl blockers

/-- `generators::king`. -/
def king (sp blockers _enemies : Nat) : Nat :=
  ((shl sp 1 &&& NOT_H_RANK) ||| (shl sp 9 &&& NOT_H_RANK) |||
      (shr sp 7 &&& NOT_H_RANK) ||| shl sp 8 |||
      (shl sp 7 &&& NOT_A_RANK) ||| (shr sp 1 &&& NOT_A_RANK) |||
      (shr sp 9 &&& NOT_A_RANK) ||| shr sp 8) &&& compl blockers

/-- One sliding ray of the `generators::bishop` / `generators::rook` loops:
walk from square `(r, c)` in direction `(dr, dc)` while on the board, stop
before a blocker, include and stop on an enemy.  Seven steps of fuel cover
any ray on an 8×8 board. -/
def rayAux (blockers enemies : Nat) (dr dc : Int) : Nat → Int → Int → Nat
  | 0, _, _ => 0
  | f + 1, r, c =>
    if 0 ≤ r ∧ r < 8 ∧ 0 ≤ c ∧ c < 8 then
      let p := shl 1 (r * 8 + c).toNat
      if p &&& blockers ≠ 0 then 0
      else if p &&& enemies ≠ 0 then p
      else p ||| rayAux blockers enemies dr dc f (r + dr) (c + dc)
    else 0

/-- Sliding ray starting one step away from the origin square. -/
def ray (blockers enemies : Nat) (row col dr dc : Int) : Nat :=
  rayAux blockers enemies dr dc 8 (row + dr) (col + dc)

/-- `generators::bishop`: four diagonal rays from the highest set bit of the
input bitboard (the source computes `offset = 63 - leading_zeros`). -/
def bishop (sp blockers enemies : Nat) : Nat :=
  let off := offsetOf sp
  let row : Int := (off / 8 : Nat)
  let col : Int := (off % 8 : Nat)
  ray blockers enemies row col 1 1 ||| ray blockers enemies row col 1 (-1) |||
    ray blockers enemies row col (-1) 1 ||| ray blockers enemies row col (-1) (-1)

/-- `generators::rook`: four orthogonal rays. -/
def rook (sp blockers enemies : Nat) : Nat :=
  let off := offsetOf sp
  let row : Int := (off / 8 : Nat)
  let col : Int := (off % 8 : Nat)
  ray blockers enemies row col 1 0 ||| ray blockers enemies row col (-1) 0 |||
    ray blockers enemies row col 0 1 ||| ray blockers enemies row col 0 (-1)

/-- `generators::queen`: union of the rook and bishop rays. -/
def queen (sp blockers enemies : Nat) : Nat :=
  rook sp blockers enemies ||| bishop sp blockers enemies

/-!  Core value types of `types/piece.rs`. -/

/-- `piece::Color`. -/
inductive Color where
  | White
  | Black
deriving DecidableEq

/-- `Color::other`. -/
def Color.other : Color → Color
  | Color.White => Color.Black
  | Color.Black => Color.White

/-- `piece::Kind`. -/
inductive Kind where
  | Pawn
  | Knight
  | Bishop
  | Rook
  | Queen
  | King
deriving DecidableEq

/-- `Kind::value`, the fixed per-kind piece value table. -/
def Kind.value : Kind → Int
  | Kind.Pawn => 1000
  | Kind.Knight => 3000
  | Kind.Bishop => 3100
  | Kind.Rook => 5000
  | Kind.Queen => 9000
  | Kind.King => 1000000000

/-- `Kind::attacked_value`, the smaller-magnitude attacked-square table. -/
def Kind.attacked_value : Kind → Int
  | Kind.Pawn => 100
  | Kind.Knight => 300
  | Kind.Bishop => 310
  | Kind.Rook => 500
  | Kind.Queen => 900
  | Kind.King => 1000

/-- `piece::Piece`. -/
structure Piece where
  color : Color
  kind : Kind
deriving DecidableEq

/-- `board::Castle`, the per-color castling rights. -/
inductive Castle where
  | No
  | King
  | Queen
  | Both
deriving DecidableEq

/-- `moves::CastleSide`. -/
inductive CastleSide where
  | Queen
  | King
deriving DecidableEq

/-- Modelled from the spec: the shipped `types/moves.rs` is a stale revision
(a flat `Move {piece, from, to}` without the `MoveVariant` that
`types/board.rs` and `moves/generator.rs` import), so the tagged variant is
reconstructed from §3 of the spec ("Move: tagged variant — Standard{from,to},
Castle{side}, Promote{from,to,promoted-kind}") and from its uses.  `fromSq`
and `toSq` are single-bit bitboards. -/
inductive MoveVariant where
  | standard (fromSq toSq : Nat)
  | castle (side : CastleSide)
  | promote (fromSq toSq : Nat) (to_piece : Kind)
deriving DecidableEq

/-- Modelled from the spec (§3): a move carries the moving piece and its
tagged action. -/
structure Move where
  piece : Piece
  action : MoveVariant
deriving DecidableEq

/-- The twelve piece-kind bitboards.  The live code keeps them in a
`HashMap<Piece, Bitboard>`; the components rewrite keeps the same twelve in a
struct.  The embedding uses one struct for both, with the fixed iteration
order `pieceList` below standing in for the (unspecified) HashMap iteration
order of the live code. -/
structure Bitboards where
  wP : Nat
  wN : Nat
  wB : Nat
  wR : Nat
  wQ : Nat
  wK : Nat
  bP : Nat
  bN : Nat
  bB : Nat
  bR : Nat
  bQ : Nat
  bK : Nat
deriving DecidableEq

/-- Fixed enumeration of the twelve pieces (the array order of
`BBPosition::into_iter`; chosen as the canonical iteration order for the
live `HashMap` as well). -/
def pieceList : List Piece :=
  [⟨Color.White, Kind.Pawn⟩, ⟨Color.White, Kind.Knight⟩, ⟨Color.White, Kind.Bishop⟩,
    ⟨Color.White, Kind.Rook⟩, ⟨Color.White, Kind.Queen⟩, ⟨Color.White, Kind.King⟩,
    ⟨Color.Black, Kind.Pawn⟩, ⟨Color.Black, Kind.Knight⟩, ⟨Color.Black, Kind.Bishop⟩,
    ⟨Color.Black, Kind.Rook⟩, ⟨Color.Black, Kind.Queen⟩, ⟨Color.Black, Kind.King⟩]

/-- Bitboard of one piece (`Bitboards::bitboard_by_piece` / `BBPosition::get`). -/
def Bitboards.get (b : Bitboards) (p : Piece) : Nat :=
  match p.color, p.kind with
  | Color.White, Kind.Pawn => b.wP
  | Color.White, Kind.Knight => b.wN
  | Color.White, Kind.Bishop => b.wB
  | Color.White, Kind.Rook => b.wR
  | Color.White, Kind.Queen => b.wQ
  | Color.White, Kind.King => b.wK
  | Color.Black, Kind.Pawn => b.bP
  | Color.Black, Kind.Knight => b.bN
  | Color.Black, Kind.Bishop => b.bB
  | Color.Black, Kind.Rook => b.bR
  | Color.Black, Kind.Queen => b.bQ
  | Color.Black, Kind.King => b.bK

/-- Replace the bitboard of one piece (`get_mut` followed by assignment). -/
def Bitboards.set (b : Bitboards) (p : Piece) (v : Nat) : Bitboards :=
  match p.color, p.kind with
  | Color.White, Kind.Pawn => ⟨v, b.wN, b.wB, b.wR, b.wQ, b.wK, b.bP, b.bN, b.bB, b.bR, b.bQ, b.bK⟩
  | Color.White, Kind.Knight => ⟨b.wP, v, b.wB, b.wR, b.wQ, b.wK, b.bP, b.bN, b.bB, b.bR, b.bQ, b.bK⟩
  | Color.White, Kind.Bishop => ⟨b.wP, b.wN, v, b.wR, b.wQ, b.wK, b.bP, b.bN, b.bB, b.bR, b.bQ, b.bK⟩
  | Color.White, Kind.Rook => ⟨b.wP, b.wN, b.wB, v, b.wQ, b.wK, b.bP, b.bN, b.bB, b.bR, b.bQ, b.bK⟩
  | Color.White, Kind.Queen => ⟨b.wP, b.wN, b.wB, b.wR, v, b.wK, b.bP, b.bN, b.bB, b.bR, b.bQ, b.bK⟩
  | Color.White, Kind.King => ⟨b.wP, b.wN, b.wB, b.wR, b.wQ, v, b.bP, b.bN, b.bB, b.bR, b.bQ, b.bK⟩
  | Color.Black, Kind.Pawn => ⟨b.wP, b.wN, b.wB, b.wR, b.wQ, b.wK, v, b.bN, b.bB, b.bR, b.bQ, b.bK⟩
  | Color.Black, Kind.Knight => ⟨b.wP, b.wN, b.wB, b.wR, b.wQ, b.wK, b.bP, v, b.bB, b.bR, b.bQ, b.bK⟩
  | Color.Black, Kind.Bishop => ⟨b.wP, b.wN, b.wB, b.wR, b.wQ, b.wK, b.bP, b.bN, v, b.bR, b.bQ, b.bK⟩
  | Color.Black, Kind.Rook => ⟨b.wP, b.wN, b.wB, b.wR, b.wQ, b.wK, b.bP, b.bN, b.bB, v, b.bQ, b.bK⟩
  | Color.Black, Kind.Queen => ⟨b.wP, b.wN, b.wB, b.wR, b.wQ, b.wK, b.bP, b.bN, b.bB, b.bR, v, b.bK⟩
  | Color.Black, Kind.King => ⟨b.wP, b.wN, b.wB, b.wR, b.wQ, b.wK, b.bP, b.bN, b.bB, b.bR, b.bQ, v⟩

/-- `Bitboards::occupied_cells`: the source sums the twelve bitboards
(`.map(|pos| pos.bits).sum()`), which coincides with their union exactly on
boards satisfying the one-piece-per-square invariant. -/
def Bitboards.occupied_cells (b : Bitboards) : Nat :=
  sum64 (pieceList.map (fun p => b.get p))

/-- `Bitboards::squares_occupied_by_color`. -/
def Bitboards.squares_occupied_by_color (b : Bitboards) (c : Color) : Nat :=
  sum64 ((pieceList.filter (fun p => p.color = c)).map (fun p => b.get p))

/-- Dispatch of `Piece::get_moves_generator`. -/
def Piece.moves_generator (p : Piece) (sp blockers enemies : Nat) : Nat :=
  match p.kind, p.color with
  | Kind.Pawn, Color.White => white_pawn sp blockers enemies
  | Kind.Pawn, Color.Black => black_pawn sp blockers enemies
  | Kind.Knight, _ => knight sp blockers enemies
  | Kind.Bishop, _ => bishop sp blockers enemies
  | Kind.Rook, _ => rook sp blockers enemies
  | Kind.Queen, _ => queen sp blockers enemies
  | Kind.King, _ => king sp blockers enemies

/-- Dispatch of `Piece::get_attacks_generator`. -/
def Piece.attacks_generator (p : Piece) (sp blockers enemies : Nat) : Nat :=
  match p.kind, p.color with
  | Kind.Pawn, Color.White => white_pawn_attack sp blockers enemies
  | Kind.Pawn, Color.Black => black_pawn_attack sp blockers enemies
  | Kind.Knight, _ => knight sp blockers enemies
  | Kind.Bishop, _ => bishop sp blockers enemies
  | Kind.Rook, _ => rook sp blockers enemies
  | Kind.Queen, _ => queen sp blockers enemies
  | Kind.King, _ => king sp blockers enemies

/-- `Bitboards::attacked_squares` of `types/board.rs`: union over every piece
of `side`, per single square, of its attack generator; pawns are called with
the full occupancy and `u64::MAX` as enemies. -/
def Bitboards.attacked_squares (b : Bitboards) (side : Color) : Nat :=
  (pieceList.filter (fun p => p.color = side)).foldl
    (fun acc p =>
      (single_squares (b.get p)).foldl
        (fun acc2 sp =>
          acc2 |||
            (match p.kind with
             | Kind.Pawn => p.attacks_generator sp b.occupied_cells M64
             | _ =>
               p.attacks_generator sp (b.squares_occupied_by_color side)
                 (b.squares_occupied_by_color side.other)))
        acc)
    0

/-- `Bitboards::get_piece_in_square`: first piece (in iteration order) whose
bitboard covers the square. -/
def Bitboards.get_piece_in_square (b : Bitboards) (square : Nat) : Option Piece :=
  pieceList.find? (fun p => b.get p &&& square ≠ 0)

/-- `Bitboards::is_in_check`. -/
def Bitboards.is_in_check (b : Bitboards) (side : Color) : Bool :=
  b.get ⟨side, Kind.King⟩ &&& b.attacked_squares side.other ≠ 0

/-- `generator::bitboards_after_castling`: reposition king and rook to the
fixed destination squares of the given side and color. -/
def bitboards_after_castling (b : Bitboards) (turn : Color) (side : CastleSide) : Bitboards :=
  let kingP : Piece := ⟨turn, Kind.King⟩
  let rookP : Piece := ⟨turn, Kind.Rook⟩
  match turn, side with
  | Color.White, CastleSide.King =>
    (b.set kingP 0x2).set rookP ((b.get rookP &&& compl 0x1) ||| 0x4)
  | Color.White, CastleSide.Queen =>
    (b.set kingP 0x20).set rookP ((b.get rookP &&& compl 0x80) ||| 0x10)
  | Color.Black, CastleSide.King =>
    (b.set kingP (shl 0x2 56)).set rookP ((b.get rookP &&& compl (shl 0x1 56)) ||| shl 0x4 56)
  | Color.Black, CastleSide.Queen =>
    (b.set kingP (shl 0x20 56)).set rookP ((b.get rookP &&& compl (shl 0x80 56)) ||| shl 0x10 56)

/-- `Bitboards::make_unchecked_move` of `types/board.rs`: update the twelve
bitboards for one move; for standard and promotion moves the destination bit
is cleared on any occupying piece (capture). -/
def Bitboards.make_unchecked_move (b : Bitboards) (m : Move) : Bitboards :=
  match m.action with
  | MoveVariant.standard fromSq toSq =>
    let b1 := b.set m.piece ((b.get m.piece &&& compl fromSq) ||| toSq)
    match b.get_piece_in_square toSq with
    | some oc => b1.set oc (b1.get oc &&& compl toSq)
    | none => b1
  | MoveVariant.castle side => bitboards_after_castling b m.piece.color side
  | MoveVariant.promote fromSq toSq to_piece =>
    let b1 := b.set m.piece (b.get m.piece &&& compl fromSq)
    let newP : Piece := ⟨m.piece.color, to_piece⟩
    let b2 := b1.set newP (b1.get newP ||| toSq)
    match b.get_piece_in_square toSq with
    | some oc => b2.set oc (b2.get oc &&& compl toSq)
    | none => b2

/-!  Board state of `types/board.rs`. -/

/-- `board::Board`: position, turn, en-passant target, castling rights,
fifty-move counter (u8, modelled as a `Nat` reduced mod 256 on increment)
and move counter. -/
structure Board where
  position : Bitboards
  turn : Color
  en_passant_target : Nat
  white_can_castle : Castle
  black_can_castle : Castle
  reps_50 : Nat
  moves_count : Nat
deriving DecidableEq

/-- `Board::attacked_squares`. -/
def Board.attacked_squares (b : Board) (side : Color) : Nat :=
  b.position.attacked_squares side

/-- `Board::castling_rights`. -/
def Board.castling_rights (b : Board) (side : Color) : Castle :=
  match side with
  | Color.Black => b.black_can_castle
  | Color.White => b.white_can_castle

/-- `Board::calculate_en_passant_target`: set only when a pawn makes a
two-square advance and an enemy pawn stands adjacent on the landing file. -/
def Board.calculate_en_passant_target (b : Board) (m : Move) : Nat :=
  match m.action with
  | MoveVariant.standard fromSq toSq =>
    if m.piece.kind ≠ Kind.Pawn then 0
    else if shl fromSq 16 ≠ toSq ∧ shr fromSq 16 ≠ toSq then 0
    else
      let doer := (shl toSq 1 &&& NOT_H_RANK) ||| (shr toSq 1 &&& NOT_A_RANK)
      match m.piece.color with
      | Color.White =>
        if doer &&& b.position.get ⟨Color.Black, Kind.Pawn⟩ ≠ 0 then shr toSq 8 else 0
      | Color.Black =>
        if doer &&& b.position.get ⟨Color.White, Kind.Pawn⟩ ≠ 0 then shl toSq 8 else 0
  | _ => 0

/-- Original-square masks used by `Board::calculate_castling_rights`. -/
def white_queen_rook : Nat := 0x80

/-- White kingside rook original square (H1, bit 0). -/
def white_king_rook : Nat := 0x1

/-- Black queenside rook original square (A8, bit 63). -/
def black_queen_rook : Nat := shl 0x80 56

/-- Black kingside rook original square (H8, bit 56). -/
def black_king_rook : Nat := shl 0x1 56

/-- White half of `Board::calculate_castling_rights`.  The source hits
`unreachable!()` when a rook piece carries a castle or promotion action while
the right is not already `No`; those panics are modelled as `none`. -/
def Board.calc_white_castle (b : Board) (m : Move) : Option Castle :=
  match m.piece.color, m.piece.kind with
  | Color.White, Kind.King => some Castle.No
  | Color.White, Kind.Rook =>
    match b.white_can_castle, m.action with
    | Castle.No, _ => some Castle.No
    | Castle.King, MoveVariant.standard fromSq _ =>
      some (if fromSq &&& white_king_rook ≠ 0 then Castle.No else Castle.King)
    | Castle.Queen, MoveVariant.standard fromSq _ =>
      some (if fromSq &&& white_queen_rook ≠ 0 then Castle.No else Castle.Queen)
    | Castle.Both, MoveVariant.standard fromSq _ =>
      some
        (if fromSq &&& white_king_rook ≠ 0 then Castle.Queen
         else if fromSq &&& white_queen_rook ≠ 0 then Castle.King
         else Castle.Both)
    | _, _ => none
  | Color.Black, _ =>
    match b.white_can_castle, m.action with
    | Castle.No, _ => some Castle.No
    | Castle.King, MoveVariant.standard _ toSq =>
      some (if toSq &&& white_king_rook ≠ 0 then Castle.No else Castle.King)
    | Castle.King, MoveVariant.promote _ toSq _ =>
      some (if toSq &&& white_king_rook ≠ 0 then Castle.No else Castle.King)
    | Castle.Queen, MoveVariant.standard _ toSq =>
      some (if toSq &&& white_queen_rook ≠ 0 then Castle.No else Castle.Queen)
    | Castle.Queen, MoveVariant.promote _ toSq _ =>
      some (if toSq &&& white_queen_rook ≠ 0 then Castle.No else Castle.Queen)
    | Castle.Both, MoveVariant.standard _ toSq =>
      some
        (if toSq &&& white_king_rook ≠ 0 then Castle.Queen
         else if toSq &&& white_queen_rook ≠ 0 then Castle.King
         else Castle.Both)
    | Castle.Both, MoveVariant.promote _ toSq _ =>
      some
        (if toSq &&& white_king_rook ≠ 0 then Castle.Queen
         else if toSq &&& white_queen_rook ≠ 0 then Castle.King
         else Castle.Both)
    | _, _ => some b.white_can_castle
  | _, _ => some b.white_can_castle

/-- Black half of `Board::calculate_castling_rights` (mirror of the white
half). -/
def Board.calc_black_castle (b : Board) (m : Move) : Option Castle :=
  match m.piece.color, m.piece.kind with
  | Color.Black, Kind.King => some Castle.No
  | Color.Black, Kind.Rook =>
    match b.black_can_castle, m.action with
    | Castle.No, _ => some Castle.No
    | Castle.King, MoveVariant.standard fromSq _ =>
      some (if fromSq &&& black_king_rook ≠ 0 then Castle.No else Castle.King)
    | Castle.Queen, MoveVariant.standard fromSq _ =>
      some (if fromSq &&& black_queen_rook ≠ 0 then Castle.No else Castle.Queen)
    | Castle.Both, MoveVariant.standard fromSq _ =>
      some
        (if fromSq &&& black_king_rook ≠ 0 then Castle.Queen
         else if fromSq &&& black_queen_rook ≠ 0 then Castle.King
         else Castle.Both)
    | _, _ => none
  | Color.White, _ =>
    match b.black_can_castle, m.action with
    | Castle.No, _ => some Castle.No
    | Castle.King, MoveVariant.standard _ toSq =>
      some (if toSq &&& black_king_rook ≠ 0 then Castle.No else Castle.King)
    | Castle.King, MoveVariant.promote _ toSq _ =>
      some (if toSq &&& black_king_rook ≠ 0 then Castle.No else Castle.King)
    | Castle.Queen, MoveVariant.standard _ toSq =>
      some (if toSq &&& black_queen_rook ≠ 0 then Castle.No else Castle.Queen)
    | Castle.Queen, MoveVariant.promote _ toSq _ =>
      some (if toSq &&& black_queen_rook ≠ 0 then Castle.No else Castle.Queen)
    | Castle.Both, MoveVariant.standard _ toSq =>
      some
        (if toSq &&& black_king_rook ≠ 0 then Castle.Queen
         else if toSq &&& black_queen_rook ≠ 0 then Castle.King
         else Castle.Both)
    | Castle.Both, MoveVariant.promote _ toSq _ =>
      some
        (if toSq &&& black_king_rook ≠ 0 then Castle.Queen
         else if toSq &&& black_queen_rook ≠ 0 then Castle.King
         else Castle.Both)
    | _, _ => some b.black_can_castle
  | _, _ => some b.black_can_castle

/-- `Board::calculate_castling_rights` (both halves; `none` models the
`unreachable!()` panics). -/
def Board.calculate_castling_rights (b : Board) (m : Move) : Option (Castle × Castle) :=
  match b.calc_white_castle m, b.calc_black_castle m with
  | some w, some bl => some (w, bl)
  | _, _ => none

/-- `Board::reset_50_moves`: true exactly for a standard move by a pawn or
onto an occupied square. -/
def Board.reset_50_moves (b : Board) (m : Move) : Bool :=
  match m.action with
  | MoveVariant.standard _ toSq =>
    m.piece.kind = Kind.Pawn ∨ toSq &&& b.position.occupied_cells ≠ 0
  | _ => false

/-- `Board::make_unchecked_move`: position update, turn flip, en-passant and
castling-rights recompute, fifty-move counter update (u8 increment, hence the
mod 256), move counter increment.  `none` models the `unreachable!()` panics
of the castling-rights recompute. -/
def Board.make_unchecked_move (b : Board) (m : Move) : Option Board :=
  match b.calculate_castling_rights m with
  | none => none
  | some (w, bl) =>
    some
      { position := b.position.make_unchecked_move m
        turn := b.turn.other
        en_passant_target := b.calculate_en_passant_target m
        white_can_castle := w
        black_can_castle := bl
        reps_50 := if b.reset_50_moves m then 0 else (b.reps_50 + 1) % 256
        moves_count := b.moves_count + 1 }

/-- `Board::move_is_capture`: a standard move whose destination is occupied by
the opponent. -/
def Board.move_is_capture (b : Board) (m : Move) : Bool :=
  match m.action with
  | MoveVariant.standard _ toSq =>
    b.position.squares_occupied_by_color m.piece.color.other &&& toSq ≠ 0
  | _ => false

/-!  Move generator and orderer of `moves/generator.rs`. -/

/-- Two's-complement wrap of an i32 addition result. -/
def wrap32 (z : Int) : Int := (z + 2 ^ 31) % 2 ^ 32 - 2 ^ 31

/-- The i32 minimum. -/
def I32_MIN : Int := -(2 ^ 31)

/-- The i32 maximum. -/
def I32_MAX : Int := 2 ^ 31 - 1

/-- The ordering buckets built by `generate_moves_ordered` (local vectors in
the source, exposed as a record so that their content can be reasoned about). -/
structure MoveBuckets where
  possible_best : List Move
  stop_checks : List Move
  promotions : List Move
  checks : List Move
  captures : List (Move × Int)
  quiet_moves : List (Move × Int)

/-- The four promotion variants of a pawn move, in the `Kind::iter` order with
Pawn and King skipped. -/
def promotion_variants (p : Piece) (fromSq toSq : Nat) : List Move :=
  [⟨p, MoveVariant.promote fromSq toSq Kind.Knight⟩,
    ⟨p, MoveVariant.promote fromSq toSq Kind.Bishop⟩,
    ⟨p, MoveVariant.promote fromSq toSq Kind.Rook⟩,
    ⟨p, MoveVariant.promote fromSq toSq Kind.Queen⟩]

/-- Piece value at a square, defaulting to 0 when the square is empty
(the source calls `.expect(..)` there; the branch is only reached when the
square is occupied, so the default is never used on invariant-satisfying
boards). -/
def square_value (b : Bitboards) (sq : Nat) : Int :=
  match b.get_piece_in_square sq with
  | some t => t.kind.value
  | none => 0

/-- Classification loop of `generate_moves_ordered`: every legal standard
move of the side to move is appended to exactly one bucket, in the source's
if-else order (principal variation, stop-checks, promotions, checks,
captures rated victim − attacker, quiet moves rated by the attacked enemy
values from the destination square). -/
def classify_moves (b : Board) (oc : Bool) (pv : List Move) : MoveBuckets :=
  let side := b.turn
  let other := side.other
  let our := b.position.squares_occupied_by_color side
  let opp := b.position.squares_occupied_by_color other
  (pieceList.filter (fun p => p.color = side)).foldl
    (fun bk0 p =>
      (single_squares (b.position.get p)).foldl
        (fun bk1 sp =>
          let mvbb :=
            match p.kind with
            | Kind.Pawn => p.moves_generator sp b.position.occupied_cells opp
            | _ => p.moves_generator sp our opp
          (single_squares mvbb).foldl
            (fun bk toSq =>
              let cur : Move := ⟨p, MoveVariant.standard sp toSq⟩
              let atk2 :=
                match p.kind with
                | Kind.Pawn => p.moves_generator toSq b.position.occupied_cells opp
                | _ => p.moves_generator toSq our opp
              if (b.position.make_unchecked_move cur).is_in_check side then bk
              else if pv.contains cur ∧ ¬oc then
                { bk with possible_best := bk.possible_best ++ [cur] }
              else if b.position.is_in_check side then
                { bk with stop_checks := bk.stop_checks ++ [cur] }
              else if p.kind = Kind.Pawn ∧ (toSq &&& EIGHT_ROW ≠ 0 ∨ toSq &&& FIRST_ROW ≠ 0) ∧ ¬oc then
                { bk with promotions := bk.promotions ++ promotion_variants p sp toSq }
              else if b.position.is_in_check other ∧ ¬oc then
                { bk with checks := bk.checks ++ [cur] }
              else if toSq &&& opp ≠ 0 then
                let rating := wrap32 (square_value b.position toSq - p.kind.value)
                { bk with captures := bk.captures ++ [(cur, rating)] }
              else
                let rating :=
                  (single_squares (atk2 &&& opp)).foldl
                    (fun r sq => wrap32 (r + square_value b.position sq)) 0
                { bk with quiet_moves := bk.quiet_moves ++ [(cur, rating)] })
            bk1)
        bk0)
    ⟨[], [], [], [], [], []⟩

/-- Stable insertion into a descending-by-rating list (earlier elements stay
in front of equally rated later ones, as Rust's stable `sort_by_key` with
`Reverse(rating)` does). -/
def insert_desc (x : Move × Int) : List (Move × Int) → List (Move × Int)
  | [] => [x]
  | y :: ys => if x.2 ≥ y.2 then x :: y :: ys else y :: insert_desc x ys

/-- Stable descending sort by rating. -/
def sort_desc (l : List (Move × Int)) : List (Move × Int) :=
  l.foldr insert_desc []

/-- The kingside castle move value of `inner_castling_moves`. -/
def castle_king_move (b : Board) : Move :=
  ⟨⟨b.turn, Kind.King⟩, MoveVariant.castle CastleSide.King⟩

/-- The queenside castle move value of `inner_castling_moves`. -/
def castle_queen_move (b : Board) : Move :=
  ⟨⟨b.turn, Kind.King⟩, MoveVariant.castle CastleSide.Queen⟩

/-- White kingside arm of `inner_castling_moves`. -/
def white_castle_k (b : Board) : List Move :=
  if b.attacked_squares Color.Black &&& 0xe ≠ 0 ∨ b.position.occupied_cells &&& 0x6 ≠ 0 then []
  else [castle_king_move b]

/-- White queenside arm of `inner_castling_moves`. -/
def white_castle_q (b : Board) : List Move :=
  if b.attacked_squares Color.Black &&& 0x38 ≠ 0 ∨ b.position.occupied_cells &&& 0x70 ≠ 0 then []
  else [castle_queen_move b]

/-- Black kingside arm of `inner_castling_moves`. -/
def black_castle_k (b : Board) : List Move :=
  if b.attacked_squares Color.White &&& shl 0xe 56 ≠ 0 ∨
      b.position.occupied_cells &&& shl 0x6 56 ≠ 0 then []
  else [castle_king_move b]

/-- Black queenside arm of `inner_castling_moves`. -/
def black_castle_q (b : Board) : List Move :=
  if b.attacked_squares Color.White &&& shl 0x38 56 ≠ 0 ∨
      b.position.occupied_cells &&& shl 0x70 56 ≠ 0 then []
  else [castle_queen_move b]

/-- Case analysis of `generator::inner_castling_moves` over turn and rights.
The source's `Castle::Both` arms recurse into the `Castle::King` and
`Castle::Queen` arms; the recursion is unfolded into the two arm values. -/
def inner_castling_moves (b : Board) (wc bc : Castle) : List Move :=
  match b.turn, wc, bc with
  | Color.White, Castle.King, _ => white_castle_k b
  | Color.White, Castle.Queen, _ => white_castle_q b
  | Color.White, Castle.Both, _ => white_castle_k b ++ white_castle_q b
  | Color.Black, _, Castle.King => black_castle_k b
  | Color.Black, _, Castle.Queen => black_castle_q b
  | Color.Black, _, Castle.Both => black_castle_k b ++ black_castle_q b
  | _, _, _ => []

/-- `generator::castling_moves`. -/
def castling_moves (b : Board) : List Move :=
  inner_castling_moves b b.white_can_castle b.black_can_castle

/-- `generator::generate_moves_ordered`: buckets assembled best-first; with
`only_critical` set, only stop-checks and captures are returned. -/
def generate_moves_ordered (b : Board) (oc : Bool) (pv : List Move) : List Move :=
  let bk := classify_moves b oc pv
  let caps := (sort_desc bk.captures).map (fun t => t.1)
  if oc then bk.stop_checks ++ caps
  else
    bk.possible_best ++ bk.stop_checks ++ bk.promotions ++ bk.checks ++ caps ++
      castling_moves b ++ (sort_desc bk.quiet_moves).map (fun t => t.1)

/-!  Static evaluation of `utils/static_evaluation.rs`. -/

/-- Modelled from the spec: `types/constants.rs` is missing; §4.4 fixes a
"small set of central squares".  The model takes d4, e4, d5, e5
(bits 28, 27, 36, 35). -/
def CENTRAL_MASK : Nat := (1 <<< 28) ||| (1 <<< 27) ||| (1 <<< 36) ||| (1 <<< 35)

/-- Modelled from the spec: per-square positional table, indexed (as in the
source) by `leading_zeros` of the square bit, i.e. by `63 - index`.  Central
squares score 50, every other square 0. -/
def SQUARES_VALUE (lz : Nat) : Int :=
  if lz = 27 ∨ lz = 28 ∨ lz = 35 ∨ lz = 36 then 50 else 0

/-- Modelled from the spec: the fixed bonus per attacked square. -/
def ATTACKED_SQUARE_ADVANTAGE : Int := 10

/-- `static_evaluation::StaticEval`: the two independent tallies. -/
structure StaticEval where
  white : Int
  black : Int
deriving DecidableEq

/-- `StaticEval::add` (i32 addition, wrapped). -/
def StaticEval.add (e : StaticEval) (side : Color) (v : Int) : StaticEval :=
  match side with
  | Color.White => ⟨wrap32 (e.white + v), e.black⟩
  | Color.Black => ⟨e.white, wrap32 (e.black + v)⟩

/-- Per-piece contribution of the `static_evaluate` loop: material, the
opponent's attacked-piece bonus, and the central-square table. -/
def static_piece_contrib (b : Bitboards) (wAtk bAtk : Nat) (e : StaticEval) (p : Piece) :
    StaticEval :=
  let bb := b.get p
  let e1 := e.add p.color (wrap32 (count_bits bb * p.kind.value))
  let e2 :=
    match p.color with
    | Color.White => e1.add Color.Black (wrap32 (count_bits (bb &&& bAtk) * p.kind.attacked_value))
    | Color.Black => e1.add Color.White (wrap32 (count_bits (bb &&& wAtk) * p.kind.attacked_value))
  (single_squares (bb &&& CENTRAL_MASK)).foldl
    (fun acc sq => acc.add p.color (SQUARES_VALUE (63 - offsetOf sq))) e2

/-- `StaticEval::static_evaluate` of `utils/static_evaluation.rs`. -/
def static_evaluate (b : Board) : StaticEval :=
  let wAtk := b.position.attacked_squares Color.White
  let bAtk := b.position.attacked_squares Color.Black
  let e := pieceList.foldl (static_piece_contrib b.position wAtk bAtk) ⟨0, 0⟩
  let e1 := e.add Color.White (wrap32 (count_bits wAtk * ATTACKED_SQUARE_ADVANTAGE))
  e1.add Color.Black (wrap32 (count_bits bAtk * ATTACKED_SQUARE_ADVANTAGE))

/-- The value `static_eval.white - static_eval.black` computed by the search
(positive favours White), as an i32. -/
def static_diff (b : Board) : Int :=
  wrap32 ((static_evaluate b).white - (static_evaluate b).black)

/-!  Search engine of `utils/evaluation.rs`. -/

/-- `moves::Scenario` (live variant): a thin wrapper around a board. -/
structure Scenario where
  board : Board
deriving DecidableEq

/-- `Scenario::generate_moves`. -/
def Scenario.generate_moves (sc : Scenario) (oc : Bool) (pv : List Move) : List Move :=
  generate_moves_ordered sc.board oc pv

/-- `Scenario::white_in_check`. -/
def Scenario.white_in_check (sc : Scenario) : Bool :=
  sc.board.position.is_in_check Color.White

/-- `Scenario::black_in_check`. -/
def Scenario.black_in_check (sc : Scenario) : Bool :=
  sc.board.position.is_in_check Color.Black

/-- Modelled from the spec: `Scenario::apply_move` is declared in the missing
up-to-date `types/moves.rs` (the search calls it and skips `None` results;
§4.3: apply the candidate move and discard it if the mover's own king is then
attacked — the stale `Scenario::apply_moves` in the shipped file applies
`make_unchecked_move` and discards boards leaving the mover in check). -/
def Scenario.apply_move (sc : Scenario) (m : Move) : Option Scenario :=
  match sc.board.make_unchecked_move m with
  | none => none
  | some nb => if nb.position.is_in_check m.piece.color then none else some ⟨nb⟩

/-- Score of a node with no generated moves (checkmate/stalemate block of
`minimax_alpha_beta_pv` and `quiescence_search`): White in check gives the
i32 minimum, else Black in check gives the i32 maximum, else 0. -/
def no_moves_score (sc : Scenario) : Int :=
  if sc.white_in_check then I32_MIN
  else if sc.black_in_check then I32_MAX
  else 0

/-- White loop of `quiescence_search` (fail-hard): `f` is the recursive call
at one less quiescence fuel.  Arguments: remaining moves, alpha, beta, the
local principal variation, and the caller's variation (returned unchanged on
a beta cutoff, as the source's early `return beta;` leaves `current_pv`
untouched). -/
def qloop_white (f : Scenario → Int → Int → Int × List Move) (sc : Scenario) :
    List Move → Int → Int → List Move → List Move → Int × List Move
  | [], alpha, _, localPv, _ => (alpha, localPv)
  | m :: rest, alpha, beta, localPv, pvIn =>
    match sc.apply_move m with
    | none => qloop_white f sc rest alpha beta localPv pvIn
    | some nsc =>
      let r := f nsc alpha beta
      if r.1 ≥ beta then (beta, pvIn)
      else if r.1 > alpha then qloop_white f sc rest r.1 beta (m :: r.2) pvIn
      else qloop_white f sc rest alpha beta localPv pvIn

/-- Black loop of `quiescence_search`. -/
def qloop_black (f : Scenario → Int → Int → Int × List Move) (sc : Scenario) :
    List Move → Int → Int → List Move → List Move → Int × List Move
  | [], _, beta, localPv, _ => (beta, localPv)
  | m :: rest, alpha, beta, localPv, pvIn =>
    match sc.apply_move m with
    | none => qloop_black f sc rest alpha beta localPv pvIn
    | some nsc =>
      let r := f nsc alpha beta
      if r.1 ≤ alpha then (alpha, pvIn)
      else if r.1 < beta then qloop_black f sc rest alpha r.1 (m :: r.2) pvIn
      else qloop_black f sc rest alpha beta localPv pvIn

/-- `quiescence_search` of `utils/evaluation.rs`, with the remaining depth
`max_depth - depth_counter` as fuel (`0` fuel is exactly
`depth_counter >= max_depth`): stand-pat beta cutoff on the static
evaluation, then the depth check, then the alpha raise, then the critical-move
recursion; an empty critical move list yields the checkmate/stalemate block. -/
def quiescence_aux : Nat → Scenario → Int → Int → List Move → Int × List Move
  | qf, sc, alpha, beta, pvIn =>
    let cur := static_diff sc.board
    if cur ≥ beta then (beta, pvIn)
    else
      match qf with
      | 0 => (cur, pvIn)
      | qf1 + 1 =>
        let alpha1 := if cur > alpha then cur else alpha
        let avail := sc.generate_moves true []
        if avail = [] then (no_moves_score sc, pvIn)
        else
          match sc.board.turn with
          | Color.White =>
            qloop_white (fun nsc a b => quiescence_aux qf1 nsc a b []) sc avail alpha1 beta [] pvIn
          | Color.Black =>
            qloop_black (fun nsc a b => quiescence_aux qf1 nsc a b []) sc avail alpha1 beta [] pvIn

/-- `quiescence_search` with the source's i32 signature. -/
def quiescence_search (sc : Scenario) (alpha beta depth_counter max_depth : Int)
    (pv : List Move) : Int × List Move :=
  quiescence_aux (max_depth - depth_counter).toNat sc alpha beta pv

/-- White loop of `minimax_alpha_beta_pv` (fail-soft): state is alpha, the
running maximum, and the local principal variation; on a cutoff the loop
breaks and the function returns the running maximum. -/
def mloop_white (f : Scenario → Int → Int → Int × List Move) (sc : Scenario) :
    List Move → Int → Int → Int → List Move → Int × List Move
  | [], _, _, maxEval, localPv => (maxEval, localPv)
  | m :: rest, alpha, beta, maxEval, localPv =>
    match sc.apply_move m with
    | none => mloop_white f sc rest alpha beta maxEval localPv
    | some nsc =>
      let r := f nsc alpha beta
      let maxEval1 := if r.1 > maxEval then r.1 else maxEval
      let localPv1 := if r.1 > maxEval then m :: r.2 else localPv
      let alpha1 := if alpha ≥ r.1 then alpha else r.1
      if alpha1 ≥ beta then (maxEval1, localPv1)
      else mloop_white f sc rest alpha1 beta maxEval1 localPv1

/-- Black loop of `minimax_alpha_beta_pv`. -/
def mloop_black (f : Scenario → Int → Int → Int × List Move) (sc : Scenario) :
    List Move → Int → Int → Int → List Move → Int × List Move
  | [], _, _, minEval, localPv => (minEval, localPv)
  | m :: rest, alpha, beta, minEval, localPv =>
    match sc.apply_move m with
    | none => mloop_black f sc rest alpha beta minEval localPv
    | some nsc =>
      let r := f nsc alpha beta
      let minEval1 := if r.1 < minEval then r.1 else minEval
      let localPv1 := if r.1 < minEval then m :: r.2 else localPv
      let beta1 := if beta ≤ r.1 then beta else r.1
      if alpha ≥ beta1 then (minEval1, localPv1)
      else mloop_black f sc rest alpha beta1 minEval1 localPv1

/-- `minimax_alpha_beta_pv` with the primary depth and the remaining
quiescence depth `max_depth - depth_counter` as fuel: an empty move list
yields the checkmate/stalemate block, depth 0 switches to quiescence, and
otherwise the alpha-beta loop recurses at one less depth (and one more
depth counter, hence one less quiescence fuel). -/
def minimax_aux : Nat → Nat → Scenario → Int → Int → List Move → Int × List Move
  | depth, qf, sc, alpha, beta, pvIn =>
    let avail := sc.generate_moves false pvIn
    if avail = [] then (no_moves_score sc, pvIn)
    else
      match depth with
      | 0 => quiescence_aux qf sc alpha beta pvIn
      | d + 1 =>
        match sc.board.turn with
        | Color.White =>
          mloop_white (fun nsc a b => minimax_aux d (qf - 1) nsc a b []) sc avail alpha beta
            I32_MIN []
        | Color.Black =>
          mloop_black (fun nsc a b => minimax_aux d (qf - 1) nsc a b []) sc avail alpha beta
            I32_MAX []

/-- `minimax_alpha_beta_pv` with the source's i32 signature. -/
def minimax_alpha_beta_pv (sc : Scenario) (depth max_depth alpha beta depth_counter : Int)
    (pv : List Move) : Int × List Move :=
  minimax_aux depth.toNat (max_depth - depth_counter).toNat sc alpha beta pv

/-!  Spec-side reference definitions for the refinement claim C3. -/

/-- Reference quiescence following the spec's words (§4.5): "keep recursing
only through critical moves until either no critical moves remain (return the
static evaluation) or a fixed maximum quiescence depth is reached (return the
static evaluation at that node)" — an exhaustive minimax over the critical
move tree with no pruning, no window and no stand-pat cutoff.  The fuel is
the remaining quiescence depth. -/
def spec_quiescence : Nat → Scenario → Int
  | 0, sc => static_diff sc.board
  | qf + 1, sc =>
    let crit := sc.generate_moves true []
    if crit = [] then static_diff sc.board
    else
      match sc.board.turn with
      | Color.White =>
        crit.foldl
          (fun acc m =>
            match sc.apply_move m with
            | none => acc
            | some c => max acc (spec_quiescence qf c))
          I32_MIN
      | Color.Black =>
        crit.foldl
          (fun acc m =>
            match sc.apply_move m with
            | none => acc
            | some c => min acc (spec_quiescence qf c))
          I32_MAX

/-- Reference search following the spec's words (§8): "the score returned by
the pruned search equals the score from an exhaustive (non-pruned) minimax
over the same move set", with the same leaf evaluation (the spec's quiescence
at the horizon, the checkmate/stalemate scores at terminal nodes).  The move
set is the one the implementation generates (children are generated with an
empty principal-variation hint, as in the implementation). -/
def spec_minimax : Nat → Nat → Scenario → List Move → Int
  | depth, qf, sc, pv =>
    let avail := sc.generate_moves false pv
    if avail = [] then no_moves_score sc
    else
      match depth with
      | 0 => spec_quiescence qf sc
      | d + 1 =>
        match sc.board.turn with
        | Color.White =>
          avail.foldl
            (fun acc m =>
              match sc.apply_move m with
              | none => acc
              | some c => max acc (spec_minimax d (qf - 1) c []))
            I32_MIN
        | Color.Black =>
          avail.foldl
            (fun acc m =>
              match sc.apply_move m with
              | none => acc
              | some c => min acc (spec_minimax d (qf - 1) c []))
            I32_MAX

end Chess

namespace ChessC

open Chess

/-!  Components variant: `components/position.rs`, `components/board.rs`,
`components/castle.rs`, `evaluator/utils.rs` and `moves/generate.rs`
(the tree claim C10 is about).  Squares are u8 bit indices here
(`moves/moves.rs`).  Bitboards reuse the `Chess.Bitboards` struct, whose
field order is exactly `BBPosition`'s `into_iter` array order. -/

/-- `moves::MoveKind` of `moves/moves.rs` (squares as bit indices). -/
inductive MoveKind where
  | standard (fromSq toSq : Nat)
  | castle (side : CastleSide)
  | promote (fromSq toSq : Nat) (to_piece : Kind)
deriving DecidableEq

/-- `moves::Move` of `moves/moves.rs`. -/
structure MoveC where
  piece : Piece
  action : MoveKind
deriving DecidableEq

/-- Square indices of the set bits, lowest first (`single_squares` of the
revision `moves/generate.rs` was written against, which yields shift
amounts). -/
def single_idx (n : Nat) : List Nat :=
  (single_squares n).map offsetOf

/-- `BBPosition::occupied_cells` (sum of the twelve bitboards). -/
def occupied_cells (b : Bitboards) : Nat := b.occupied_cells

/-- `BBPosition::occupied_by`. -/
def occupied_by (b : Bitboards) (c : Color) : Nat := b.squares_occupied_by_color c

/-- `BBPosition::piece_at`. -/
def piece_at (b : Bitboards) (shift : Nat) : Option Piece :=
  pieceList.find? (fun p => b.get p &&& (1 <<< shift) ≠ 0)

/-- `BBPosition::attacks`: attack squares of a whole piece-kind bitboard.
For sliding kinds the generators only consider the highest set bit of the
input, and the Rust expression `63 - leading_zeros` underflow-panics on an
empty input; the embedding's `offsetOf` returns 0 there instead, so this
definition is only used (and only quoted by theorems) on positions whose
relevant bitboards are nonempty. -/
def attacks (b : Bitboards) (p : Piece) (pos : Nat) : Nat :=
  match p.kind, p.color with
  | Kind.Pawn, Color.White => white_pawn_attack pos 0 M64
  | Kind.Pawn, Color.Black => black_pawn_attack pos 0 M64
  | Kind.Knight, _ => knight pos (occupied_by b p.color) (occupied_by b p.color.other)
  | Kind.Bishop, _ => bishop pos (occupied_by b p.color) (occupied_by b p.color.other)
  | Kind.Rook, _ => rook pos (occupied_by b p.color) (occupied_by b p.color.other)
  | Kind.Queen, _ => queen pos (occupied_by b p.color) (occupied_by b p.color.other)
  | Kind.King, _ => king pos (occupied_by b p.color) (occupied_by b p.color.other)

/-- `BBPosition::defenses`. -/
def defenses (b : Bitboards) (p : Piece) (pos : Nat) : Nat :=
  let our := occupied_by b p.color
  let enemies := occupied_by b p.color.other
  (match p.kind, p.color with
   | Kind.Pawn, Color.White => white_pawn_attack pos 0 M64
   | Kind.Pawn, Color.Black => black_pawn_attack pos 0 M64
   | Kind.Knight, _ => knight pos 0 enemies
   | Kind.Bishop, _ => bishop pos 0 (our ||| enemies)
   | Kind.Rook, _ => rook pos 0 (our ||| enemies)
   | Kind.Queen, _ => queen pos 0 (our ||| enemies)
   | Kind.King, _ => king pos 0 (our ||| enemies)) &&& our

/-- `BBPosition::available_moves` (single square given as a bit index). -/
def available_moves (b : Bitboards) (p : Piece) (idx : Nat) : Nat :=
  let occ := occupied_cells b
  let our := occupied_by b p.color
  let enemies := occupied_by b p.color.other
  let pos := 1 <<< idx
  match p.kind, p.color with
  | Kind.Pawn, Color.White => white_pawn pos (occ ||| enemies) enemies
  | Kind.Pawn, Color.Black => black_pawn pos (occ ||| enemies) enemies
  | Kind.Knight, _ => knight pos our enemies
  | Kind.Bishop, _ => bishop pos our enemies
  | Kind.Rook, _ => rook pos our enemies
  | Kind.Queen, _ => queen pos our enemies
  | Kind.King, _ => king pos our enemies

/-- `BBPosition::attacked_squares` (whole bitboards, not per single square). -/
def attacked_squares (b : Bitboards) (c : Color) : Nat :=
  (pieceList.filter (fun p => p.color = c)).foldl (fun acc p => acc ||| attacks b p (b.get p)) 0

/-- `BBPosition::defended_squares`. -/
def defended_squares (b : Bitboards) (c : Color) : Nat :=
  (pieceList.filter (fun p => p.color = c)).foldl (fun acc p => acc ||| defenses b p (b.get p)) 0

/-- `BBPosition::square_is_defended_by`. -/
def square_is_defended_by (b : Bitboards) (sq : Nat) (c : Color) : Bool :=
  defended_squares b c &&& (1 <<< sq) ≠ 0

/-- `BBPosition::is_in_check`. -/
def is_in_check (b : Bitboards) (side : Color) : Bool :=
  b.get ⟨side, Kind.King⟩ &&& attacked_squares b side.other ≠ 0

/-- `BBPosition::inner_make_unchecked_move`. -/
def inner_make_unchecked_move (b : Bitboards) (m : MoveC) : Bitboards :=
  match m.action with
  | MoveKind.standard fromSq toSq =>
    let fromBB := 1 <<< fromSq
    let toBB := 1 <<< toSq
    let b1 := b.set m.piece ((b.get m.piece &&& compl fromBB) ||| toBB)
    match piece_at b toSq with
    | some oc => b1.set oc (b1.get oc &&& compl toBB)
    | none => b1
  | MoveKind.castle side => bitboards_after_castling b m.piece.color side
  | MoveKind.promote fromSq toSq to_piece =>
    let fromBB := 1 <<< fromSq
    let toBB := 1 <<< toSq
    let b1 := b.set m.piece (b.get m.piece &&& compl fromBB)
    let newP : Piece := ⟨m.piece.color, to_piece⟩
    let b2 := b1.set newP (b1.get newP ||| toBB)
    match piece_at b toSq with
    | some oc => b2.set oc (b2.get oc &&& compl toBB)
    | none => b2

/-- `Move::is_promotion` of `moves/moves.rs`. -/
def MoveC.is_promotion (m : MoveC) : Bool :=
  match m.action with
  | MoveKind.standard _ toSq =>
    m.piece.kind = Kind.Pawn ∧ ((1 <<< toSq) &&& EIGHT_ROW ≠ 0 ∨ (1 <<< toSq) &&& FIRST_ROW ≠ 0)
  | MoveKind.castle _ => false
  | MoveKind.promote _ _ _ => true

/-- `Move::is_capture` of `moves/moves.rs`. -/
def MoveC.is_capture (m : MoveC) (b : Bitboards) : Bool :=
  match m.action with
  | MoveKind.castle _ => false
  | MoveKind.standard _ toSq => occupied_by b m.piece.color.other &&& (1 <<< toSq) ≠ 0
  | MoveKind.promote _ toSq _ => occupied_by b m.piece.color.other &&& (1 <<< toSq) ≠ 0

/-- `components::Board`. -/
structure BoardC where
  position : Bitboards
  turn : Color
  en_passant_target : Nat
  white_can_castle : Castle
  black_can_castle : Castle
  reps_50 : Nat
  moves_count : Nat
deriving DecidableEq

/-- Modelled from the spec: `components/constants.rs` is missing; §4.4 calls
this "a small fixed constant" for attacking an empty square. -/
def ATTACKED_EMPTY_SQUARE_VALUE : Int := 10

/-- Modelled from the spec: fixed ordering score of a castle move
(`components/constants.rs` is missing; the value only orders moves). -/
def CASTLING_VALUE : Int := 100

/-- Modelled from the spec: fixed ordering score of a promotion
(`components/constants.rs` is missing; the value only orders moves). -/
def PROMOTION_VALUE : Int := 8000

/-- `evaluator::utils::attacked_squares_score`. -/
def attacked_squares_score (b : Bitboards) (p : Piece) (pos : Nat) : Int :=
  (single_idx (attacks b p pos)).foldl
    (fun acc shift =>
      wrap32
        (acc +
          match piece_at b shift with
          | some q => q.kind.attacked_value
          | none => ATTACKED_EMPTY_SQUARE_VALUE))
    0

/-- `evaluator::utils::inner_move_score_no_captures`. -/
def inner_move_score_no_captures (m : MoveC) (b : Bitboards) : Int :=
  match m.action with
  | MoveKind.castle _ => CASTLING_VALUE
  | MoveKind.standard fromSq toSq =>
    wrap32 (attacked_squares_score b m.piece (1 <<< toSq) -
      attacked_squares_score b m.piece (1 <<< fromSq))
  | MoveKind.promote _ _ _ => PROMOTION_VALUE

/-- Capture branch of `evaluator::utils::move_score_with_mvv_lva` (victim −
attacker, scaled 3/2 towards zero when capturing a defended piece badly, or
replaced by the victim value when the victim is undefended).  The `.expect`
on the attacker square is modelled by a 0 default, never reached on boards
whose moving piece stands on its from-square. -/
def mvv_lva_standard (m : MoveC) (b : Bitboards) (fromSq toSq : Nat) : Int :=
  match piece_at b toSq with
  | none => inner_move_score_no_captures m b
  | some victim =>
    let attacker :=
      match piece_at b fromSq with
      | some a => a.kind.value
      | none => 0
    let cv := wrap32 (victim.kind.value - attacker)
    if square_is_defended_by b toSq victim.color then
      if cv < 0 then wrap32 (Int.tdiv (wrap32 (cv * 3)) 2) else cv
    else if cv < 0 then victim.kind.value
    else cv

/-- `evaluator::utils::move_score_with_mvv_lva`. -/
def move_score_with_mvv_lva (m : MoveC) (b : Bitboards) : Int :=
  match m.action with
  | MoveKind.castle _ => CASTLING_VALUE
  | MoveKind.standard fromSq toSq => mvv_lva_standard m b fromSq toSq
  | MoveKind.promote fromSq toSq to_piece =>
    let se := mvv_lva_standard ⟨m.piece, MoveKind.standard fromSq toSq⟩ b fromSq toSq
    if ¬ square_is_defended_by b toSq m.piece.color.other then
      wrap32 (se + to_piece.value - Kind.Pawn.value)
    else se

/-- Kingside castle move of `castle::available_castling_moves`. -/
def castle_k_move (b : BoardC) : MoveC :=
  ⟨⟨b.turn, Kind.King⟩, MoveKind.castle CastleSide.King⟩

/-- Queenside castle move of `castle::available_castling_moves`. -/
def castle_q_move (b : BoardC) : MoveC :=
  ⟨⟨b.turn, Kind.King⟩, MoveKind.castle CastleSide.Queen⟩

/-- White kingside arm of `available_castling_moves`. -/
def avail_white_k (b : BoardC) : Option MoveC × Option MoveC :=
  if attacked_squares b.position Color.Black &&& 0xe ≠ 0 ∨
      occupied_cells b.position &&& 0x6 ≠ 0 then (none, none)
  else (some (castle_k_move b), none)

/-- White queenside arm of `available_castling_moves`. -/
def avail_white_q (b : BoardC) : Option MoveC × Option MoveC :=
  if attacked_squares b.position Color.Black &&& 0x38 ≠ 0 ∨
      occupied_cells b.position &&& 0x70 ≠ 0 then (none, none)
  else (none, some (castle_q_move b))

/-- Black kingside arm of `available_castling_moves`. -/
def avail_black_k (b : BoardC) : Option MoveC × Option MoveC :=
  if attacked_squares b.position Color.White &&& shl 0xe 56 ≠ 0 ∨
      occupied_cells b.position &&& shl 0x6 56 ≠ 0 then (none, none)
  else (some (castle_k_move b), none)

/-- Black queenside arm of `available_castling_moves`. -/
def avail_black_q (b : BoardC) : Option MoveC × Option MoveC :=
  if attacked_squares b.position Color.White &&& shl 0x38 56 ≠ 0 ∨
      occupied_cells b.position &&& shl 0x70 56 ≠ 0 then (none, none)
  else (none, some (castle_q_move b))

/-- `castle::available_castling_moves` (the `Both` arms of the source recurse
into the single-side arms; the recursion is unfolded into the arm values). -/
def available_castling_moves (b : BoardC) (wc bc : Castle) : Option MoveC × Option MoveC :=
  match b.turn, wc, bc with
  | Color.White, Castle.King, _ => avail_white_k b
  | Color.White, Castle.Queen, _ => avail_white_q b
  | Color.White, Castle.Both, _ => ((avail_white_k b).1, (avail_white_q b).2)
  | Color.Black, _, Castle.King => avail_black_k b
  | Color.Black, _, Castle.Queen => avail_black_q b
  | Color.Black, _, Castle.Both => ((avail_black_k b).1, (avail_black_q b).2)
  | _, _, _ => (none, none)

/-- The four rated promotion variants pushed by `Board::generate_moves`
(`PieceKind::iter` order with Pawn and King skipped). -/
def promo_candidates (b : BoardC) (p : Piece) (idx toSq : Nat) : List (MoveC × Int) :=
  [Kind.Knight, Kind.Bishop, Kind.Rook, Kind.Queen].map
    (fun k =>
      let pm : MoveC := ⟨p, MoveKind.promote idx toSq k⟩
      (pm, move_score_with_mvv_lva pm b.position))

/-- The rated moves `Board::generate_moves` pushes for one candidate
destination: nothing when the move leaves the mover in check, the four
promotion variants for a promotion (unless `only_critical`), the move itself
when it is a capture or a stop-check, and otherwise the move itself unless
`only_critical`. -/
def candidate_of (b : BoardC) (oc : Bool) (p : Piece) (idx toSq : Nat) : List (MoveC × Int) :=
  let cur : MoveC := ⟨p, MoveKind.standard idx toSq⟩
  if is_in_check (inner_make_unchecked_move b.position cur) p.color then []
  else if cur.is_promotion ∧ ¬oc then promo_candidates b p idx toSq
  else if cur.is_capture b.position ∨ is_in_check b.position b.turn then
    [(cur, move_score_with_mvv_lva cur b.position)]
  else if ¬oc then [(cur, move_score_with_mvv_lva cur b.position)]
  else []

/-- Rated castle candidates appended at the end of `Board::generate_moves`. -/
def castle_candidates (b : BoardC) (oc : Bool) : List (MoveC × Int) :=
  if ¬ is_in_check b.position b.turn ∧ ¬oc then
    match available_castling_moves b b.white_can_castle b.black_can_castle with
    | (k, q) =>
      (k.toList.map (fun m => (m, move_score_with_mvv_lva m b.position))) ++
        (q.toList.map (fun m => (m, move_score_with_mvv_lva m b.position)))
  else []

/-- The full sequence of `Moves::push` calls performed by
`Board::generate_moves`, in order.  The ratings do not depend on the `Moves`
accumulator, so listing the pushed (move, rating) pairs first and folding
them through `push` afterwards is observationally the source's interleaved
loop. -/
def candidates (b : BoardC) (oc : Bool) : List (MoveC × Int) :=
  ((pieceList.filter (fun p => p.color = b.turn)).flatMap
      (fun p =>
        (single_idx (b.position.get p)).flatMap
          (fun idx =>
            (single_idx (available_moves b.position p idx)).flatMap
              (fun toSq => candidate_of b oc p idx toSq)))) ++
    castle_candidates b oc

/-- `Moves::push` of `moves/generate.rs`: the backing array has 255 slots and
the write `self.list[self.len] = ..` is at index `len`, so the 256th push is
out of bounds; `none` models that panic. -/
def moves_push (l : List (MoveC × Int)) (m : MoveC) (e : Int) : Option (List (MoveC × Int)) :=
  if l.length < 255 then some (l ++ [(m, e)]) else none

/-- `Board::generate_moves` of `moves/generate.rs` as the fold of its pushes;
`none` models the out-of-bounds panic of the 256th push. -/
def generate_moves (b : BoardC) (oc : Bool) : Option (List (MoveC × Int)) :=
  (candidates b oc).foldlM (fun l me => moves_push l me.1 me.2) []

end ChessC

namespace Chess

/-!  Square-string parsing, `TryFrom<&str> for Bitboard` of `types/piece.rs`
(the `components/pieces.rs` copy is identical). -/

/-- Outcome of the square parser: a successful bitboard, a returned error, or
a panic (u8 underflow in `- 64`, `8 - column`, `row - 1`, or u64 shift
overflow in `1 << shift` — all of which abort in a debug build rather than
returning an error). -/
inductive ParseOutcome where
  | ok (bits : Nat)
  | err
  | panics
deriving DecidableEq

/-- `char::to_ascii_uppercase` on the code point. -/
def to_ascii_uppercase (n : Nat) : Nat := if 97 ≤ n ∧ n ≤ 122 then n - 32 else n

/-- `TryFrom<&str> for Bitboard`: first char uppercased, truncated to u8 and
shifted down by 64 to a column number; second char parsed as a decimal digit
row; result `1 << (8 - column + (row - 1) * 8)`.  Characters beyond the
second are ignored, as in the source. -/
def bitboard_try_from (s : String) : ParseOutcome :=
  match s.data with
  | [] => ParseOutcome.err
  | c1 :: rest =>
    let up := to_ascii_uppercase c1.toNat % 256
    if up < 64 then ParseOutcome.panics
    else
      let col := up - 64
      match rest with
      | [] => ParseOutcome.err
      | c2 :: _ =>
        let d := c2.toNat
        if 48 ≤ d ∧ d ≤ 57 then
          let row := d - 48
          if 8 < col then ParseOutcome.panics
          else if row = 0 then ParseOutcome.panics
          else
            let shift := 8 - col + (row - 1) * 8
            if 64 ≤ shift then ParseOutcome.panics
            else ParseOutcome.ok (1 <<< shift)
        else ParseOutcome.err

/-!  Witness data: concrete boards (built directly, as
`Board::from_forsyth_edwards` would) and decidable orderings used by the
claims. -/

/-- Single-square bitboard of file `f` (A = 1 .. H = 8) and rank `r`,
the indexing fixed by `From<(u8, u8)> for Bitboard`. -/
def sqb (f r : Nat) : Nat := 1 <<< ((8 - f) + (r - 1) * 8)

/-- The spec's order on castling rights: `No` below `KingsideOnly` and
`QueensideOnly`, both below `Both` (King and Queen incomparable). -/
def castle_le (a b : Castle) : Bool :=
  match a, b with
  | Castle.No, _ => true
  | Castle.King, Castle.King => true
  | Castle.King, Castle.Both => true
  | Castle.Queen, Castle.Queen => true
  | Castle.Queen, Castle.Both => true
  | Castle.Both, Castle.Both => true
  | _, _ => false

/-- Stalemate witness (C1): Black to move with king a8 against white Qc7/Kc1;
Black has no legal move and is not in check. -/
def bStale : Board :=
  { position :=
      { wP := 0, wN := 0, wB := 0, wR := 0, wQ := sqb 3 7, wK := sqb 3 1,
        bP := 0, bN := 0, bB := 0, bR := 0, bQ := 0, bK := sqb 1 8 }
    turn := Color.Black, en_passant_target := 0
    white_can_castle := Castle.No, black_can_castle := Castle.No
    reps_50 := 0, moves_count := 1 }

/-- Quiet-position witness (C2, C3, C9): White king a1 and pawn a2 against a
black king h8; no critical moves exist, the static evaluation is 1000. -/
def bQuiet : Board :=
  { position :=
      { wP := sqb 1 2, wN := 0, wB := 0, wR := 0, wQ := 0, wK := sqb 1 1,
        bP := 0, bN := 0, bB := 0, bR := 0, bQ := 0, bK := sqb 8 8 }
    turn := Color.White, en_passant_target := 0
    white_can_castle := Castle.No, black_can_castle := Castle.No
    reps_50 := 0, moves_count := 1 }

/-- The board `bQuiet` with a (spurious) stored en-passant target, for the
noninterference claim C9. -/
def bQuietEp : Board :=
  { position :=
      { wP := sqb 1 2, wN := 0, wB := 0, wR := 0, wQ := 0, wK := sqb 1 1,
        bP := 0, bN := 0, bB := 0, bR := 0, bQ := 0, bK := sqb 8 8 }
    turn := Color.White, en_passant_target := sqb 1 3
    white_can_castle := Castle.No, black_can_castle := Castle.No
    reps_50 := 0, moves_count := 1 }

/-- Castling witness (C4): white Ke1/Rh1 with kingside rights, black Kh8;
kingside castling is generated. -/
def bCastle : Board :=
  { position :=
      { wP := 0, wN := 0, wB := 0, wR := sqb 8 1, wQ := 0, wK := sqb 5 1,
        bP := 0, bN := 0, bB := 0, bR := 0, bQ := 0, bK := sqb 8 8 }
    turn := Color.White, en_passant_target := 0
    white_can_castle := Castle.King, black_can_castle := Castle.No
    reps_50 := 0, moves_count := 1 }

/-- Promotion witness (C5): white pawn a7 about to promote. -/
def bPromo : Board :=
  { position :=
      { wP := sqb 1 7, wN := 0, wB := 0, wR := 0, wQ := 0, wK := sqb 1 1,
        bP := 0, bN := 0, bB := 0, bR := 0, bQ := 0, bK := sqb 8 8 }
    turn := Color.White, en_passant_target := 0
    white_can_castle := Castle.No, black_can_castle := Castle.No
    reps_50 := 0, moves_count := 1 }

/-- The promotion move a7-a8=Q on `bPromo`. -/
def mPromo : Move :=
  ⟨⟨Color.White, Kind.Pawn⟩, MoveVariant.promote (sqb 1 7) (sqb 1 8) Kind.Queen⟩

/-- Counterexample board for C7: White to move while the black king h8 is
already attacked by the white rook h4; moving that rook to a4 is classified
as a "check" although it releases the check. -/
def bCheck7 : Board :=
  { position :=
      { wP := 0, wN := 0, wB := 0, wR := sqb 8 4, wQ := 0, wK := sqb 1 1,
        bP := 0, bN := 0, bB := 0, bR := 0, bQ := 0, bK := sqb 8 8 }
    turn := Color.White, en_passant_target := 0
    white_can_castle := Castle.No, black_can_castle := Castle.No
    reps_50 := 0, moves_count := 1 }

/-- The rook move h4-a4 on `bCheck7`. -/
def mCheck7 : Move :=
  ⟨⟨Color.White, Kind.Rook⟩, MoveVariant.standard (sqb 8 4) (sqb 1 4)⟩

/-- The king move a1-b1 on `bQuiet` (a quiet non-pawn move). -/
def mQuietK : Move :=
  ⟨⟨Color.White, Kind.King⟩, MoveVariant.standard (sqb 1 1) (sqb 2 1)⟩

/-- The board after the promotion `mPromo` on `bPromo`. -/
def bPromoAfter : Board := (bPromo.make_unchecked_move mPromo).getD bPromo

/-- The board after the king move `mQuietK` on `bQuiet`. -/
def bQuietAfter : Board := (bQuiet.make_unchecked_move mQuietK).getD bQuiet

/-- Counterexample board for C4: White king displaced to a1 (in check from
the black rook a8) while the stored kingside right survives; the kingside
castle is still generated. -/
def bCastleCheck : Board :=
  { position :=
      { wP := 0, wN := 0, wB := 0, wR := sqb 8 1, wQ := 0, wK := sqb 1 1,
        bP := 0, bN := 0, bB := 0, bR := sqb 1 8, bQ := 0, bK := sqb 8 8 }
    turn := Color.White, en_passant_target := 0
    white_can_castle := Castle.King, black_can_castle := Castle.No
    reps_50 := 0, moves_count := 1 }

/-- The conditions under which `inner_castling_moves` offers a castle of the
given side for the side to move: the stored rights permit that side, none of
the squares strictly between the king's and rook's original squares are
occupied, and none of the squares of the king's nominal path (its original
square E1/E8 included) are attacked by the opponent. -/
def castle_cond (b : Board) (side : CastleSide) : Prop :=
  match b.turn, side with
  | Color.White, CastleSide.King =>
    (b.white_can_castle = Castle.King ∨ b.white_can_castle = Castle.Both) ∧
      b.attacked_squares Color.Black &&& 0xe = 0 ∧ b.position.occupied_cells &&& 0x6 = 0
  | Color.White, CastleSide.Queen =>
    (b.white_can_castle = Castle.Queen ∨ b.white_can_castle = Castle.Both) ∧
      b.attacked_squares Color.Black &&& 0x38 = 0 ∧ b.position.occupied_cells &&& 0x70 = 0
  | Color.Black, CastleSide.King =>
    (b.black_can_castle = Castle.King ∨ b.black_can_castle = Castle.Both) ∧
      b.attacked_squares Color.White &&& shl 0xe 56 = 0 ∧
      b.position.occupied_cells &&& shl 0x6 56 = 0
  | Color.Black, CastleSide.Queen =>
    (b.black_can_castle = Castle.Queen ∨ b.black_can_castle = Castle.Both) ∧
      b.attacked_squares Color.White &&& shl 0x38 56 = 0 ∧
      b.position.occupied_cells &&& shl 0x70 56 = 0

/-- Every move stored in any of the six classification buckets has a
non-castle action (proof-side predicate over `MoveBuckets`). -/
@[reducible] def noCastleBuckets (bk : MoveBuckets) : Prop :=
  (∀ m ∈ bk.possible_best, ∀ s, m.action ≠ MoveVariant.castle s) ∧
  (∀ m ∈ bk.stop_checks, ∀ s, m.action ≠ MoveVariant.castle s) ∧
  (∀ m ∈ bk.promotions, ∀ s, m.action ≠ MoveVariant.castle s) ∧
  (∀ m ∈ bk.checks, ∀ s, m.action ≠ MoveVariant.castle s) ∧
  (∀ me ∈ bk.captures, ∀ s, me.1.action ≠ MoveVariant.castle s) ∧
  (∀ me ∈ bk.quiet_moves, ∀ s, me.1.action ≠ MoveVariant.castle s)

/-- The one-piece-per-square invariant: the twelve bitboards are pairwise
disjoint. -/
def disjointBB (b : Bitboards) : Prop :=
  List.Pairwise (fun p q => b.get p &&& b.get q = 0) pieceList

/-- Well-formedness of the u64 embedding: every bitboard is below `2 ^ 64`. -/
def wf64 (b : Bitboards) : Prop := ∀ p ∈ pieceList, b.get p < 2 ^ 64

instance (b : Bitboards) : Decidable (disjointBB b) := by
  unfold disjointBB; infer_instance

instance (b : Bitboards) : Decidable (wf64 b) := by
  unfold wf64; infer_instance

/-- Binary population count, the proof-side counterpart of `count_bits`
(defined by well-founded recursion; only used inside proofs). -/
def pc (n : Nat) : Nat :=
  if h : n = 0 then 0
  else
    have : n / 2 < n := Nat.div_lt_self (Nat.pos_of_ne_zero h) (by omega)
    pc (n / 2) + n % 2

/-- Bitwise subset order on `Nat`. -/
def BitSub (a b : Nat) : Prop := ∀ i, a.testBit i = true → b.testBit i = true

/-- Windowed approximation relation of alpha-beta search (proof-side): the
returned score `r` of a search with window `(a, b)` determines the exhaustive
value `V` inside the window and brackets it outside. -/
@[reducible] def abApprox (V r a b : Int) : Prop :=
  (V ≤ a → V ≤ r ∧ r ≤ a) ∧ (a < V → V < b → r = V) ∧ (b ≤ V → b ≤ r ∧ r ≤ V)

/-- Maximising fold of the exhaustive minimax over a move list: skip moves the
application rejects, take the maximum of the child values otherwise
(proof-side; matches the White fold of `spec_minimax`). -/
def wfold (app : Move → Option Scenario) (W : Scenario → Int) (l : List Move) (acc : Int) :
    Int :=
  l.foldl (fun acc m => match app m with | none => acc | some c => max acc (W c)) acc

/-- Minimising fold of the exhaustive minimax over a move list (proof-side;
matches the Black fold of `spec_minimax`). -/
def bfold (app : Move → Option Scenario) (W : Scenario → Int) (l : List Move) (acc : Int) :
    Int :=
  l.foldl (fun acc m => match app m with | none => acc | some c => min acc (W c)) acc

end Chess

namespace ChessC

open Chess

/-- Counterexample board for C10: 21 white queens and a white bishop against
the six black piece kinds (all twelve bitboards pairwise disjoint, so the
one-piece-per-square invariant holds); `Board::generate_moves` performs 269
pushes on it. -/
def bBig : BoardC :=
  { position :=
      { wP := 0, wN := 0, wB := 0x8000000000000000, wR := 0,
        wQ := 0x6e8184818481827a, wK := 0,
        bP := 0x100000000000000, bN := 0x1, bB := 0x1000000,
        bR := 0x1000000000000000, bQ := 0x4, bK := 0x80 }
    turn := Color.White, en_passant_target := 0
    white_can_castle := Castle.No, black_can_castle := Castle.No
    reps_50 := 0, moves_count := 1 }

/-- The same position with Black (six pieces) to move: a board satisfying the
piece-count bound of the amended C10. -/
def bBigBlack : BoardC := { bBig with turn := Color.Black }

end ChessC

namespace Chess

set_option maxRecDepth 1000000

/-!  Claim C1. -/

/-- C1: on a board where the move generator returns no legal moves while the
side that just moved is not in check, the alpha-beta search returns the i32
minimum when White is to move and in check, the i32 maximum when Black is to
move and in check, and exactly 0 when the side to move is not in check
(stalemate). -/
theorem C1_terminal_score (sc : Scenario) (depth max_depth alpha beta depth_counter : Int)
    (pv : List Move)
    (hmoves : sc.generate_moves false pv = [])
    (hother : sc.board.position.is_in_check sc.board.turn.other = false) :
    (minimax_alpha_beta_pv sc depth max_depth alpha beta depth_counter pv).1 =
      if sc.board.position.is_in_check sc.board.turn then
        match sc.board.turn with
        | Color.White => I32_MIN
        | Color.Black => I32_MAX
      else 0 := by
  unfold minimax_alpha_beta_pv minimax_aux
  simp only [hmoves, if_pos rfl]
  cases ht : sc.board.turn with
  | White =>
    rw [ht] at hother
    simp only [Color.other] at hother
    simp [no_moves_score, Scenario.white_in_check, Scenario.black_in_check, hother]
  | Black =>
    rw [ht] at hother
    simp only [Color.other] at hother
    simp [no_moves_score, Scenario.white_in_check, Scenario.black_in_check, hother]

/-- Witness for C1 at a concrete stalemate: black to move with king a8
against white Qc7/Kc1 has no legal moves, neither side is in check, and the
search returns 0. -/
theorem C1_terminal_score_witness :
    Scenario.generate_moves ⟨bStale⟩ false [] = [] ∧
    bStale.position.is_in_check Color.White = false ∧
    (minimax_alpha_beta_pv ⟨bStale⟩ 3 5 I32_MIN I32_MAX 0 []).1 = 0 := by
  have h1 : Scenario.generate_moves ⟨bStale⟩ false [] = [] := by rfl
  have h2 : bStale.position.is_in_check bStale.turn.other = false := by rfl
  have h3 := C1_terminal_score ⟨bStale⟩ 3 5 I32_MIN I32_MAX 0 [] h1 h2
  have h4 : bStale.position.is_in_check bStale.turn = false := by rfl
  rw [h4] at h3
  exact ⟨h1, h2, by simpa using h3⟩

/-!  Claim C2. -/

/-- C2 (amended): terminal behaviour of the implemented quiescence search.
If the static evaluation (white − black) is at least beta, beta is returned;
otherwise, if the maximum quiescence depth is reached, the static evaluation
is returned; otherwise, if the critical-only move generator returns an empty
list, the checkmate/stalemate block (i32 minimum / i32 maximum / 0) is
returned — not the static evaluation. -/
theorem C2_quiescence_terminal (sc : Scenario) (alpha beta depth_counter max_depth : Int)
    (pv : List Move) :
    (static_diff sc.board ≥ beta →
      (quiescence_search sc alpha beta depth_counter max_depth pv).1 = beta) ∧
    (static_diff sc.board < beta → max_depth ≤ depth_counter →
      (quiescence_search sc alpha beta depth_counter max_depth pv).1 = static_diff sc.board) ∧
    (static_diff sc.board < beta → depth_counter < max_depth →
      sc.generate_moves true [] = [] →
      (quiescence_search sc alpha beta depth_counter max_depth pv).1 = no_moves_score sc) := by
  refine ⟨?_, ?_, ?_⟩
  · intro hge
    unfold quiescence_search quiescence_aux
    simp [hge]
  · intro hlt hmd
    have h0 : (max_depth - depth_counter).toNat = 0 := by omega
    unfold quiescence_search quiescence_aux
    rw [h0]
    simp [hlt, not_le.mpr hlt]
  · intro hlt hdc hcrit
    obtain ⟨k, hk⟩ : ∃ k, (max_depth - depth_counter).toNat = k + 1 := by
      refine ⟨(max_depth - depth_counter).toNat - 1, ?_⟩
      omega
    unfold quiescence_search quiescence_aux
    rw [hk]
    simp [hlt, not_le.mpr hlt, hcrit]

/-- Counterexample for C2 as stated: on the quiet board `bQuiet` the
critical-only generator returns no moves, the static evaluation is 1000, yet
quiescence search (full window, depth 0 of max 3) returns 0, not the static
evaluation. -/
theorem C2_counterexample :
    Scenario.generate_moves ⟨bQuiet⟩ true [] = [] ∧
    (quiescence_search ⟨bQuiet⟩ I32_MIN I32_MAX 0 3 []).1 = 0 ∧
    static_diff bQuiet = 1000 ∧
    (quiescence_search ⟨bQuiet⟩ I32_MIN I32_MAX 0 3 []).1 ≠ static_diff bQuiet := by
  have h1 : Scenario.generate_moves ⟨bQuiet⟩ true [] = [] := by rfl
  have h2 : (quiescence_search ⟨bQuiet⟩ I32_MIN I32_MAX 0 3 []).1 = 0 := by rfl
  have h3 : static_diff bQuiet = 1000 := by rfl
  exact ⟨h1, h2, h3, by rw [h2, h3]; decide⟩

/-- Witness for the amended C2: on `bQuiet` with the full window the third
clause applies and quiescence returns the checkmate/stalemate block value. -/
theorem C2_quiescence_terminal_witness :
    (quiescence_search ⟨bQuiet⟩ I32_MIN I32_MAX 0 3 []).1 = no_moves_score ⟨bQuiet⟩ :=
  (C2_quiescence_terminal ⟨bQuiet⟩ I32_MIN I32_MAX 0 3 []).2.2 (by decide) (by decide) (by rfl)

/-!  Claim C5. -/

/-- C5 (amended): after a (non-panicking) move application, the fifty-move
counter is 0 exactly when `reset_50_moves` fired, which happens exactly for a
Standard move by a pawn or onto an occupied square — promotions and castles
never reset the counter; otherwise the counter increments. -/
theorem C5_fifty_move (b : Board) (m : Move) (nb : Board)
    (happ : b.make_unchecked_move m = some nb) (hr : b.reps_50 < 255) :
    (nb.reps_50 = 0 ↔ b.reset_50_moves m = true) ∧
    (b.reset_50_moves m = true ↔ ∃ f t, m.action = MoveVariant.standard f t ∧
      (m.piece.kind = Kind.Pawn ∨ t &&& b.position.occupied_cells ≠ 0)) ∧
    (b.reset_50_moves m = false → nb.reps_50 = b.reps_50 + 1) := by
  have hreps : nb.reps_50 = if b.reset_50_moves m then 0 else (b.reps_50 + 1) % 256 := by
    unfold Board.make_unchecked_move at happ
    rcases hc : b.calculate_castling_rights m with _ | ⟨w, bl⟩ <;> rw [hc] at happ
    · exact absurd happ (by simp)
    · cases happ
      rfl
  have hmod : (b.reps_50 + 1) % 256 = b.reps_50 + 1 := Nat.mod_eq_of_lt (by omega)
  refine ⟨?_, ?_, ?_⟩
  · rw [hreps, hmod]
    cases hres : b.reset_50_moves m <;> simp
  · unfold Board.reset_50_moves
    cases hact : m.action with
    | standard f t =>
      simp only [decide_eq_true_eq]
      constructor
      · intro h
        exact ⟨f, t, rfl, h⟩
      · rintro ⟨f2, t2, heq, h⟩
        cases heq
        exact h
    | castle side => simp
    | promote f t k => simp
  · intro hres
    rw [hreps, hres, hmod]
    simp

/-- Counterexample for C5 as stated: the promotion a7-a8=Q is a pawn move,
yet the resulting fifty-move counter is 1, not 0. -/
theorem C5_counterexample :
    bPromo.make_unchecked_move mPromo = some bPromoAfter ∧
    mPromo.piece.kind = Kind.Pawn ∧
    bPromoAfter.reps_50 = 1 := by
  exact ⟨by rfl, by rfl, by rfl⟩

/-- Witness for the amended C5 at the promotion move: `reset_50_moves` does
not fire and the counter increments from 0 to 1. -/
theorem C5_fifty_move_witness :
    bPromoAfter.reps_50 = bPromo.reps_50 + 1 :=
  (C5_fifty_move bPromo mPromo bPromoAfter (by rfl) (by decide)).2.2 (by rfl)

/-!  Claim C6. -/

/-- The white half of the castling-rights recompute never increases the white
rights. -/
theorem calc_white_le (b : Board) (m : Move) (w : Castle)
    (h : b.calc_white_castle m = some w) : castle_le w b.white_can_castle = true := by
  rcases m with ⟨⟨mc, mk⟩, act⟩
  cases mc <;> cases mk <;> cases act <;>
    cases hwc : b.white_can_castle <;>
    simp_all [Board.calc_white_castle] <;>
    first
      | rfl
      | (cases h; rfl)
      | (split_ifs at h <;> cases h <;> rfl)

/-- The black half of the castling-rights recompute never increases the black
rights. -/
theorem calc_black_le (b : Board) (m : Move) (w : Castle)
    (h : b.calc_black_castle m = some w) : castle_le w b.black_can_castle = true := by
  rcases m with ⟨⟨mc, mk⟩, act⟩
  cases mc <;> cases mk <;> cases act <;>
    cases hwc : b.black_can_castle <;>
    simp_all [Board.calc_black_castle] <;>
    first
      | rfl
      | (cases h; rfl)
      | (split_ifs at h <;> cases h <;> rfl)

/-- C6: applying any (non-panicking) move never increases either color's
castling rights, in the order where No is below KingsideOnly and
QueensideOnly, which are both below Both. -/
theorem C6_castle_rights_monotone (b : Board) (m : Move) (nb : Board)
    (happ : b.make_unchecked_move m = some nb) :
    castle_le nb.white_can_castle b.white_can_castle = true ∧
    castle_le nb.black_can_castle b.black_can_castle = true := by
  unfold Board.make_unchecked_move at happ
  rcases hc : b.calculate_castling_rights m with _ | ⟨w, bl⟩ <;> rw [hc] at happ
  · exact absurd happ (by simp)
  · cases happ
    unfold Board.calculate_castling_rights at hc
    rcases hw : b.calc_white_castle m with _ | w2 <;> rw [hw] at hc
    · exact absurd hc (by simp)
    · rcases hb : b.calc_black_castle m with _ | b2 <;> rw [hb] at hc
      · exact absurd hc (by simp)
      · injection hc with hc2
        injection hc2 with hcw hcb
        subst hcw
        subst hcb
        exact ⟨calc_white_le b _ _ hw, calc_black_le b _ _ hb⟩

/-- Witness for C6 at the concrete promotion move on `bPromo`. -/
theorem C6_castle_rights_monotone_witness :
    castle_le bPromoAfter.white_can_castle bPromo.white_can_castle = true ∧
    castle_le bPromoAfter.black_can_castle bPromo.black_can_castle = true :=
  C6_castle_rights_monotone bPromo mPromo bPromoAfter (by rfl)

/-!  Claim C8. -/

/-- C8 (amended): square parsing returns the single-bit board of the
designated square for a file letter A-H (either case, as a first character
whose ASCII uppercase is 64 + file) followed by a rank digit 1-8 (extra
characters are ignored); it returns an error for the empty string, a
one-character string, or a non-digit second character; but out-of-range file
letters or rank digits make it panic (u8 underflow or u64 shift overflow)
rather than return an error. -/
theorem C8_square_parsing :
    (∀ (s : String) (c1 c2 : Char) (rest : List Char) (f r : Nat),
      s.data = c1 :: c2 :: rest →
      to_ascii_uppercase c1.toNat = 64 + f → c2.toNat = 48 + r →
      1 ≤ f → f ≤ 8 → 1 ≤ r → r ≤ 8 →
      bitboard_try_from s = ParseOutcome.ok (sqb f r)) ∧
    (∀ s : String, s.data = [] → bitboard_try_from s = ParseOutcome.err) ∧
    (∀ (s : String) (c1 : Char), s.data = [c1] →
      64 ≤ to_ascii_uppercase c1.toNat % 256 →
      bitboard_try_from s = ParseOutcome.err) ∧
    (∀ (s : String) (c1 c2 : Char) (rest : List Char), s.data = c1 :: c2 :: rest →
      64 ≤ to_ascii_uppercase c1.toNat % 256 →
      ¬(48 ≤ c2.toNat ∧ c2.toNat ≤ 57) →
      bitboard_try_from s = ParseOutcome.err) := by
  refine ⟨?_, ?_, ?_, ?_⟩
  · intro s c1 c2 rest f r hs hc1 hc2 hf1 hf8 hr1 hr8
    unfold bitboard_try_from
    rw [hs]
    simp only [hc1, hc2]
    have h1 : (64 + f) % 256 = 64 + f := Nat.mod_eq_of_lt (by omega)
    rw [h1]
    rw [if_neg (by omega)]
    rw [if_pos (by omega)]
    rw [if_neg (by omega)]
    rw [if_neg (by omega)]
    rw [if_neg (by omega)]
    have h2 : 64 + f - 64 = f := by omega
    have h3 : 48 + r - 48 = r := by omega
    rw [h2, h3]
    rfl
  · intro s hs
    unfold bitboard_try_from
    rw [hs]
  · intro s c1 hs hup
    unfold bitboard_try_from
    rw [hs]
    simp only
    rw [if_neg (by omega)]
  · intro s c1 c2 rest hs hup hd
    unfold bitboard_try_from
    rw [hs]
    simp only
    rw [if_neg (by omega)]
    rw [if_neg (by simpa using hd)]

/-- Counterexample for C8 as stated: on the out-of-range rank digit in "A9"
the parser panics (u64 shift overflow) instead of returning an error. -/
theorem C8_counterexample :
    bitboard_try_from "A9" = ParseOutcome.panics ∧
    ParseOutcome.panics ≠ ParseOutcome.err := by
  exact ⟨by rfl, by decide⟩

/-- Witness for the amended C8: parsing "C7" yields the single bit of square
c7. -/
theorem C8_square_parsing_witness :
    bitboard_try_from "C7" = ParseOutcome.ok (sqb 3 7) :=
  C8_square_parsing.1 "C7" 'C' '7' [] 3 7 (by rfl) (by decide) (by decide) (by decide)
    (by decide) (by decide) (by decide)

/-!  Claim C7. -/

/-- A left fold preserves any invariant its step preserves. -/
theorem foldl_preserve {α β : Type} (P : β → Prop) (f : β → α → β) :
    ∀ (l : List α) (init : β), P init → (∀ acc a, P acc → P (f acc a)) → P (l.foldl f init)
  | [], _, h, _ => h
  | a :: l, init, h, hstep => foldl_preserve P f l (f init a) (hstep init a h) hstep

/-- Unless the opponent of the side to move is in check on the board being
generated from (and `only_critical` is off), the "checks" bucket stays
empty: its condition does not look at the move at all. -/
theorem classify_checks_empty (b : Board) (oc : Bool) (pv : List Move)
    (h : ¬(b.position.is_in_check b.turn.other = true ∧ oc = false)) :
    (classify_moves b oc pv).checks = [] := by
  unfold classify_moves
  dsimp only
  refine foldl_preserve (fun (bk : MoveBuckets) => bk.checks = []) _ _ _ rfl ?_
  intro acc p hacc
  refine foldl_preserve (fun (bk : MoveBuckets) => bk.checks = []) _ _ _ hacc ?_
  intro acc2 sp hacc2
  refine foldl_preserve (fun (bk : MoveBuckets) => bk.checks = []) _ _ _ hacc2 ?_
  intro acc3 toSq hacc3
  dsimp only
  split
  · exact hacc3
  · split
    · exact hacc3
    · split
      · exact hacc3
      · split
        · exact hacc3
        · split
          · rename_i hcond
            exact absurd ⟨hcond.1, by simpa using hcond.2⟩ h
          · split
            · exact hacc3
            · exact hacc3

/-- C7 (amended): every move placed in the "checks" bucket of the ordered
move generator is generated from a position in which the opponent of the
side to move is already in check on the pre-move board (the classification
tests the pre-move board, not the board after the move), and only when
`only_critical` is off. -/
theorem C7_checks_bucket (b : Board) (oc : Bool) (pv : List Move) (m : Move)
    (hm : m ∈ (classify_moves b oc pv).checks) :
    b.position.is_in_check b.turn.other = true ∧ oc = false := by
  by_contra hcon
  rw [classify_checks_empty b oc pv hcon] at hm
  exact absurd hm (List.not_mem_nil m)

/-- Counterexample for C7 as stated: on `bCheck7` (black king h8 already
attacked by the white rook h4) the rook retreat h4-a4 is placed in the
"checks" bucket and appears in the generated move list, yet after applying
it Black is not in check: the move does not deliver check. -/
theorem C7_counterexample :
    mCheck7 ∈ (classify_moves bCheck7 false []).checks ∧
    mCheck7 ∈ generate_moves_ordered bCheck7 false [] ∧
    (bCheck7.position.make_unchecked_move mCheck7).is_in_check Color.Black = false := by
  refine ⟨by decide, by decide, by rfl⟩

/-- Witness for the amended C7 at the concrete bucket member `mCheck7`. -/
theorem C7_checks_bucket_witness :
    bCheck7.position.is_in_check bCheck7.turn.other = true ∧ false = false :=
  C7_checks_bucket bCheck7 false [] mCheck7 (by decide)

/-!  Claim C9. -/

/-- The piece bitboard just written is read back. -/
theorem get_set_same (b : Bitboards) (p : Piece) (v : Nat) : (b.set p v).get p = v := by
  rcases p with ⟨c, k⟩
  cases c <;> cases k <;> rfl

/-- Writing one piece's bitboard leaves the others unchanged. -/
theorem get_set_ne (b : Bitboards) (p q : Piece) (v : Nat) (h : q ≠ p) :
    (b.set p v).get q = b.get q := by
  rcases p with ⟨c, k⟩
  rcases q with ⟨c2, k2⟩
  cases c <;> cases k <;> cases c2 <;> cases k2 <;> first | rfl | exact absurd rfl h

/-- C9: the stored en-passant target influences nothing.  Two boards that
differ only in the `en_passant_target` field generate the same ordered move
list and the same successor board for any move (the target is recomputed from
the position alone); and applying a standard move can only remove opposing
material from the destination square itself, so no generated move ever
performs an en-passant-style capture (removal away from the destination). -/
theorem C9_en_passant_noninterference :
    (∀ (pos : Bitboards) (turn : Color) (e1 e2 : Nat) (wc bc : Castle) (r mc : Nat)
        (oc : Bool) (pv : List Move),
      generate_moves_ordered ⟨pos, turn, e1, wc, bc, r, mc⟩ oc pv =
        generate_moves_ordered ⟨pos, turn, e2, wc, bc, r, mc⟩ oc pv) ∧
    (∀ (pos : Bitboards) (turn : Color) (e1 e2 : Nat) (wc bc : Castle) (r mc : Nat)
        (m : Move),
      Board.make_unchecked_move ⟨pos, turn, e1, wc, bc, r, mc⟩ m =
        Board.make_unchecked_move ⟨pos, turn, e2, wc, bc, r, mc⟩ m) ∧
    (∀ (pos : Bitboards) (m : Move) (f t : Nat) (q : Piece),
      m.action = MoveVariant.standard f t → q ≠ m.piece →
      (pos.make_unchecked_move m).get q = pos.get q ∨
      (pos.make_unchecked_move m).get q = pos.get q &&& compl t) := by
  refine ⟨fun pos turn e1 e2 wc bc r mc oc pv => rfl,
    fun pos turn e1 e2 wc bc r mc m => rfl, ?_⟩
  intro pos m f t q hact hq
  unfold Bitboards.make_unchecked_move
  rw [hact]
  dsimp only
  cases hfind : pos.get_piece_in_square t with
  | none =>
    left
    exact get_set_ne _ _ _ _ hq
  | some oc =>
    dsimp only
    by_cases hqoc : q = oc
    · subst hqoc
      right
      rw [get_set_same]
      rw [get_set_ne _ _ _ _ hq]
    · left
      rw [get_set_ne _ _ _ _ hqoc]
      exact get_set_ne _ _ _ _ hq

/-- Witness for C9: the quiet board with and without a stored en-passant
target generates identical move lists, and a concrete standard move removes
nothing away from its destination. -/
theorem C9_en_passant_noninterference_witness :
    generate_moves_ordered bQuiet false [] = generate_moves_ordered bQuietEp false [] ∧
    ((bQuiet.position.make_unchecked_move mQuietK).get ⟨Color.White, Kind.Pawn⟩ =
        bQuiet.position.get ⟨Color.White, Kind.Pawn⟩ ∨
      (bQuiet.position.make_unchecked_move mQuietK).get ⟨Color.White, Kind.Pawn⟩ =
        bQuiet.position.get ⟨Color.White, Kind.Pawn⟩ &&& compl (sqb 2 1)) :=
  ⟨C9_en_passant_noninterference.1 bQuiet.position Color.White 0 (sqb 1 3) Castle.No Castle.No
      0 1 false [],
    C9_en_passant_noninterference.2.2 bQuiet.position mQuietK (sqb 1 1) (sqb 2 1)
      ⟨Color.White, Kind.Pawn⟩ rfl (by decide)⟩

/-!  Claim C4. -/

/-- No bucket of the classification loop ever holds a castle-variant move:
the loop only appends standard moves and promotion variants. -/
theorem classify_no_castle (b : Board) (oc : Bool) (pv : List Move) :
    noCastleBuckets (classify_moves b oc pv) := by
  unfold classify_moves
  refine foldl_preserve noCastleBuckets _ _ _ ?_ ?_
  · unfold noCastleBuckets
    simp
  intro acc p hacc
  refine foldl_preserve noCastleBuckets _ _ _ hacc ?_
  intro acc2 sp hacc2
  refine foldl_preserve noCastleBuckets _ _ _ hacc2 ?_
  intro acc3 toSq hacc3
  obtain ⟨h1, h2, h3, h4, h5, h6⟩ := hacc3
  dsimp only
  split
  · exact ⟨h1, h2, h3, h4, h5, h6⟩
  · split
    · refine ⟨?_, h2, h3, h4, h5, h6⟩
      intro m hm s
      rcases List.mem_append.mp hm with hm2 | hm2
      · exact h1 m hm2 s
      · rcases List.mem_singleton.mp hm2 with rfl
        simp
    · split
      · refine ⟨h1, ?_, h3, h4, h5, h6⟩
        intro m hm s
        rcases List.mem_append.mp hm with hm2 | hm2
        · exact h2 m hm2 s
        · rcases List.mem_singleton.mp hm2 with rfl
          simp
      · split
        · refine ⟨h1, h2, ?_, h4, h5, h6⟩
          intro m hm s
          rcases List.mem_append.mp hm with hm2 | hm2
          · exact h3 m hm2 s
          · simp only [promotion_variants, List.mem_cons, List.not_mem_nil, or_false] at hm2
            rcases hm2 with rfl | rfl | rfl | rfl <;> simp
        · split
          · refine ⟨h1, h2, h3, ?_, h5, h6⟩
            intro m hm s
            rcases List.mem_append.mp hm with hm2 | hm2
            · exact h4 m hm2 s
            · rcases List.mem_singleton.mp hm2 with rfl
              simp
          · split
            · refine ⟨h1, h2, h3, h4, ?_, h6⟩
              intro me hm s
              rcases List.mem_append.mp hm with hm2 | hm2
              · exact h5 me hm2 s
              · rcases List.mem_singleton.mp hm2 with rfl
                simp
            · refine ⟨h1, h2, h3, h4, h5, ?_⟩
              intro me hm s
              rcases List.mem_append.mp hm with hm2 | hm2
              · exact h6 me hm2 s
              · rcases List.mem_singleton.mp hm2 with rfl
                simp

/-- Membership passes through the stable insertion. -/
theorem mem_insert_desc (x y : Move × Int) (l : List (Move × Int)) :
    y ∈ insert_desc x l ↔ y = x ∨ y ∈ l := by
  induction l with
  | nil => simp [insert_desc]
  | cons a l ih =>
    unfold insert_desc
    split
    · simp
    · simp only [List.mem_cons, ih]
      tauto

/-- Membership passes through the stable descending sort. -/
theorem mem_sort_desc (y : Move × Int) (l : List (Move × Int)) :
    y ∈ sort_desc l ↔ y ∈ l := by
  unfold sort_desc
  induction l with
  | nil => simp
  | cons a l ih =>
    simp only [List.foldr_cons, mem_insert_desc, List.mem_cons, ih]

/-- A castle-variant move in the ordered move list can only come from
`castling_moves`. -/
theorem castle_mem_castling_moves (b : Board) (oc : Bool) (pv : List Move) (m : Move)
    (side : CastleSide) (hm : m ∈ generate_moves_ordered b oc pv)
    (hact : m.action = MoveVariant.castle side) : m ∈ castling_moves b := by
  obtain ⟨h1, h2, h3, h4, h5, h6⟩ := classify_no_castle b oc pv
  unfold generate_moves_ordered at hm
  dsimp only at hm
  by_cases hoc : oc
  · rw [if_pos hoc] at hm
    rcases List.mem_append.mp hm with hm2 | hm2
    · exact absurd hact (h2 m hm2 side)
    · obtain ⟨me, hme, hme2⟩ := List.mem_map.mp hm2
      rw [mem_sort_desc] at hme
      exact absurd hact (by rw [← hme2]; exact h5 me hme side)
  · rw [if_neg hoc] at hm
    rcases List.mem_append.mp hm with hm2 | hmq
    rotate_left
    · obtain ⟨me, hme, hme2⟩ := List.mem_map.mp hmq
      rw [mem_sort_desc] at hme
      exact absurd hact (by rw [← hme2]; exact h6 me hme side)
    rcases List.mem_append.mp hm2 with hm3 | hcast
    rotate_left
    · exact hcast
    rcases List.mem_append.mp hm3 with hm4 | hm4
    rotate_left
    · obtain ⟨me, hme, hme2⟩ := List.mem_map.mp hm4
      rw [mem_sort_desc] at hme
      exact absurd hact (by rw [← hme2]; exact h5 me hme side)
    rcases List.mem_append.mp hm4 with hm5 | hm5
    rotate_left
    · exact absurd hact (h4 m hm5 side)
    rcases List.mem_append.mp hm5 with hm6 | hm6
    rotate_left
    · exact absurd hact (h3 m hm6 side)
    rcases List.mem_append.mp hm6 with hm7 | hm7
    · exact absurd hact (h1 m hm7 side)
    · exact absurd hact (h2 m hm7 side)

/-- C4 (amended): a castle move for the side to move appears in the generated
move list only when that side's stored rights permit that castle side, none
of the squares strictly between the king's and rook's original squares are
occupied, and none of the squares of the king's nominal castling path
(E1/F1/G1, C1/D1/E1, or their eighth-rank mirrors) are attacked by the
opponent.  Consequently no castle is generated while the side to move is in
check provided its king stands on its original square — but the source
checks the fixed path squares, not the king's actual square, so a board
whose stored rights disagree with the king placement can castle while in
check. -/
theorem C4_castling (b : Board) (oc : Bool) (pv : List Move) (m : Move) (side : CastleSide)
    (hm : m ∈ generate_moves_ordered b oc pv) (hact : m.action = MoveVariant.castle side) :
    castle_cond b side ∧
    (b.position.get ⟨b.turn, Kind.King⟩ =
        (match b.turn with | Color.White => sqb 5 1 | Color.Black => sqb 5 8) →
      b.position.is_in_check b.turn = false) := by
  have hc := castle_mem_castling_moves b oc pv m side hm hact
  unfold castling_moves inner_castling_moves at hc
  have hkm : ∀ h2 : m = castle_king_move b, side = CastleSide.King := by
    intro h2
    rw [h2] at hact
    unfold castle_king_move at hact
    simp at hact
    exact hact.symm
  have hqm : ∀ h2 : m = castle_queen_move b, side = CastleSide.Queen := by
    intro h2
    rw [h2] at hact
    unfold castle_queen_move at hact
    simp at hact
    exact hact.symm
  have hwk : m ∈ white_castle_k b → b.turn = Color.White →
      b.attacked_squares Color.Black &&& 0xe = 0 ∧ b.position.occupied_cells &&& 0x6 = 0 ∧
        side = CastleSide.King ∧
        (b.position.get ⟨b.turn, Kind.King⟩ =
            (match b.turn with | Color.White => sqb 5 1 | Color.Black => sqb 5 8) →
          b.position.is_in_check b.turn = false) := by
    intro hmem ht
    unfold white_castle_k at hmem
    split at hmem
    · exact absurd hmem (List.not_mem_nil m)
    · rename_i hcond
      push_neg at hcond
      rcases List.mem_singleton.mp hmem with rfl
      refine ⟨hcond.1, hcond.2, hkm rfl, ?_⟩
      intro hk
      unfold Bitboards.is_in_check
      rw [hk, ht]
      have h8 : sqb 5 1 &&& b.position.attacked_squares Color.White.other = 0 := by
        have hsub : sqb 5 1 &&& 0xe = sqb 5 1 := by decide
        calc sqb 5 1 &&& b.position.attacked_squares Color.White.other
            = (sqb 5 1 &&& 0xe) &&& b.position.attacked_squares Color.White.other := by rw [hsub]
          _ = sqb 5 1 &&& (b.position.attacked_squares Color.White.other &&& 0xe) := by
              rw [Nat.land_assoc, Nat.land_comm 0xe]
          _ = sqb 5 1 &&& (b.attacked_squares Color.Black &&& 0xe) := by rfl
          _ = 0 := by rw [hcond.1]; rfl
      simp [h8]
  have hwq : m ∈ white_castle_q b → b.turn = Color.White →
      b.attacked_squares Color.Black &&& 0x38 = 0 ∧ b.position.occupied_cells &&& 0x70 = 0 ∧
        side = CastleSide.Queen ∧
        (b.position.get ⟨b.turn, Kind.King⟩ =
            (match b.turn with | Color.White => sqb 5 1 | Color.Black => sqb 5 8) →
          b.position.is_in_check b.turn = false) := by
    intro hmem ht
    unfold white_castle_q at hmem
    split at hmem
    · exact absurd hmem (List.not_mem_nil m)
    · rename_i hcond
      push_neg at hcond
      rcases List.mem_singleton.mp hmem with rfl
      refine ⟨hcond.1, hcond.2, hqm rfl, ?_⟩
      intro hk
      unfold Bitboards.is_in_check
      rw [hk, ht]
      have h8 : sqb 5 1 &&& b.position.attacked_squares Color.White.other = 0 := by
        have hsub : sqb 5 1 &&& 0x38 = sqb 5 1 := by decide
        calc sqb 5 1 &&& b.position.attacked_squares Color.White.other
            = (sqb 5 1 &&& 0x38) &&& b.position.attacked_squares Color.White.other := by rw [hsub]
          _ = sqb 5 1 &&& (b.position.attacked_squares Color.White.other &&& 0x38) := by
              rw [Nat.land_assoc, Nat.land_comm 0x38]
          _ = sqb 5 1 &&& (b.attacked_squares Color.Black &&& 0x38) := by rfl
          _ = 0 := by rw [hcond.1]; rfl
      simp [h8]
  have hbk : m ∈ black_castle_k b → b.turn = Color.Black →
      b.attacked_squares Color.White &&& shl 0xe 56 = 0 ∧
        b.position.occupied_cells &&& shl 0x6 56 = 0 ∧ side = CastleSide.King ∧
        (b.position.get ⟨b.turn, Kind.King⟩ =
            (match b.turn with | Color.White => sqb 5 1 | Color.Black => sqb 5 8) →
          b.position.is_in_check b.turn = false) := by
    intro hmem ht
    unfold black_castle_k at hmem
    split at hmem
    · exact absurd hmem (List.not_mem_nil m)
    · rename_i hcond
      push_neg at hcond
      rcases List.mem_singleton.mp hmem with rfl
      refine ⟨hcond.1, hcond.2, hkm rfl, ?_⟩
      intro hk
      unfold Bitboards.is_in_check
      rw [hk, ht]
      have h8 : sqb 5 8 &&& b.position.attacked_squares Color.Black.other = 0 := by
        have hsub : sqb 5 8 &&& shl 0xe 56 = sqb 5 8 := by decide
        calc sqb 5 8 &&& b.position.attacked_squares Color.Black.other
            = (sqb 5 8 &&& shl 0xe 56) &&& b.position.attacked_squares Color.Black.other := by
              rw [hsub]
          _ = sqb 5 8 &&& (b.position.attacked_squares Color.Black.other &&& shl 0xe 56) := by
              rw [Nat.land_assoc, Nat.land_comm (shl 0xe 56)]
          _ = sqb 5 8 &&& (b.attacked_squares Color.White &&& shl 0xe 56) := by rfl
          _ = 0 := by rw [hcond.1]; rfl
      simp [h8]
  have hbq : m ∈ black_castle_q b → b.turn = Color.Black →
      b.attacked_squares Color.White &&& shl 0x38 56 = 0 ∧
        b.position.occupied_cells &&& shl 0x70 56 = 0 ∧ side = CastleSide.Queen ∧
        (b.position.get ⟨b.turn, Kind.King⟩ =
            (match b.turn with | Color.White => sqb 5 1 | Color.Black => sqb 5 8) →
          b.position.is_in_check b.turn = false) := by
    intro hmem ht
    unfold black_castle_q at hmem
    split at hmem
    · exact absurd hmem (List.not_mem_nil m)
    · rename_i hcond
      push_neg at hcond
      rcases List.mem_singleton.mp hmem with rfl
      refine ⟨hcond.1, hcond.2, hqm rfl, ?_⟩
      intro hk
      unfold Bitboards.is_in_check
      rw [hk, ht]
      have h8 : sqb 5 8 &&& b.position.attacked_squares Color.Black.other = 0 := by
        have hsub : sqb 5 8 &&& shl 0x38 56 = sqb 5 8 := by decide
        calc sqb 5 8 &&& b.position.attacked_squares Color.Black.other
            = (sqb 5 8 &&& shl 0x38 56) &&& b.position.attacked_squares Color.Black.other := by
              rw [hsub]
          _ = sqb 5 8 &&& (b.position.attacked_squares Color.Black.other &&& shl 0x38 56) := by
              rw [Nat.land_assoc, Nat.land_comm (shl 0x38 56)]
          _ = sqb 5 8 &&& (b.attacked_squares Color.White &&& shl 0x38 56) := by rfl
          _ = 0 := by rw [hcond.1]; rfl
      simp [h8]
  cases ht : b.turn with
  | White =>
    rw [ht] at hc
    cases hwc : b.white_can_castle with
    | No =>
      rw [hwc] at hc
      exact absurd hc (List.not_mem_nil m)
    | King =>
      rw [hwc] at hc
      obtain ⟨ha, hb2, hs, hni⟩ := hwk hc ht
      subst hs
      rw [ht] at hni
      exact ⟨by unfold castle_cond; rw [ht]; exact ⟨Or.inl hwc, ha, hb2⟩, hni⟩
    | Queen =>
      rw [hwc] at hc
      obtain ⟨ha, hb2, hs, hni⟩ := hwq hc ht
      subst hs
      rw [ht] at hni
      exact ⟨by unfold castle_cond; rw [ht]; exact ⟨Or.inl hwc, ha, hb2⟩, hni⟩
    | Both =>
      rw [hwc] at hc
      rcases List.mem_append.mp hc with hk2 | hq2
      · obtain ⟨ha, hb2, hs, hni⟩ := hwk hk2 ht
        subst hs
        rw [ht] at hni
        exact ⟨by unfold castle_cond; rw [ht]; exact ⟨Or.inr hwc, ha, hb2⟩, hni⟩
      · obtain ⟨ha, hb2, hs, hni⟩ := hwq hq2 ht
        subst hs
        rw [ht] at hni
        exact ⟨by unfold castle_cond; rw [ht]; exact ⟨Or.inr hwc, ha, hb2⟩, hni⟩
  | Black =>
    rw [ht] at hc
    cases hbc : b.black_can_castle with
    | No =>
      rw [hbc] at hc
      exact absurd hc (List.not_mem_nil m)
    | King =>
      rw [hbc] at hc
      obtain ⟨ha, hb2, hs, hni⟩ := hbk hc ht
      subst hs
      rw [ht] at hni
      exact ⟨by unfold castle_cond; rw [ht]; exact ⟨Or.inl hbc, ha, hb2⟩, hni⟩
    | Queen =>
      rw [hbc] at hc
      obtain ⟨ha, hb2, hs, hni⟩ := hbq hc ht
      subst hs
      rw [ht] at hni
      exact ⟨by unfold castle_cond; rw [ht]; exact ⟨Or.inl hbc, ha, hb2⟩, hni⟩
    | Both =>
      rw [hbc] at hc
      rcases List.mem_append.mp hc with hk2 | hq2
      · obtain ⟨ha, hb2, hs, hni⟩ := hbk hk2 ht
        subst hs
        rw [ht] at hni
        exact ⟨by unfold castle_cond; rw [ht]; exact ⟨Or.inr hbc, ha, hb2⟩, hni⟩
      · obtain ⟨ha, hb2, hs, hni⟩ := hbq hq2 ht
        subst hs
        rw [ht] at hni
        exact ⟨by unfold castle_cond; rw [ht]; exact ⟨Or.inr hbc, ha, hb2⟩, hni⟩

/-- Counterexample for the final clause of C4 as stated: on `bCastleCheck`
(white king displaced to a1 and in check from the rook a8, stored kingside
right intact) the kingside castle move is generated although White is in
check. -/
theorem C4_counterexample :
    castle_king_move bCastleCheck ∈ generate_moves_ordered bCastleCheck false [] ∧
    bCastleCheck.position.is_in_check bCastleCheck.turn = true := by
  exact ⟨by decide, by rfl⟩

/-- Witness for the amended C4 at the concrete castling board `bCastle`. -/
theorem C4_castling_witness : castle_cond bCastle CastleSide.King :=
  (C4_castling bCastle false [] (castle_king_move bCastle) CastleSide.King (by decide) rfl).1

/-!  Claim C3. -/

/-- One-step unfolding of `wfold` over a cons cell. -/
theorem wfold_cons (app : Move → Option Scenario) (W : Scenario → Int) (m : Move)
    (rest : List Move) (acc : Int) :
    wfold app W (m :: rest) acc =
      match app m with
      | none => wfold app W rest acc
      | some c => wfold app W rest (max acc (W c)) := by
  simp only [wfold, List.foldl_cons]
  cases app m <;> rfl

/-- `wfold` over a skipped move. -/
theorem wfold_cons_none (app : Move → Option Scenario) (W : Scenario → Int) (m : Move)
    (rest : List Move) (acc : Int) (h : app m = none) :
    wfold app W (m :: rest) acc = wfold app W rest acc := by
  rw [wfold_cons, h]

/-- `wfold` over an applied move. -/
theorem wfold_cons_some (app : Move → Option Scenario) (W : Scenario → Int) (m : Move)
    (rest : List Move) (acc : Int) (c : Scenario) (h : app m = some c) :
    wfold app W (m :: rest) acc = wfold app W rest (max acc (W c)) := by
  rw [wfold_cons, h]

/-- The maximising fold only grows its accumulator. -/
theorem wfold_ge_acc (app : Move → Option Scenario) (W : Scenario → Int) :
    ∀ (l : List Move) (acc : Int), acc ≤ wfold app W l acc := by
  intro l
  induction l with
  | nil => intro acc; exact le_refl _
  | cons m rest ih =>
    intro acc
    rw [wfold_cons]
    cases app m with
    | none => exact ih acc
    | some c => exact le_trans (le_max_left _ _) (ih _)

/-- Upper bound of the maximising fold. -/
theorem wfold_le (app : Move → Option Scenario) (W : Scenario → Int) (hi : Int) :
    ∀ (l : List Move) (acc : Int), acc ≤ hi →
      (∀ m ∈ l, ∀ c, app m = some c → W c ≤ hi) → wfold app W l acc ≤ hi := by
  intro l
  induction l with
  | nil => intro acc hacc _; exact hacc
  | cons m rest ih =>
    intro acc hacc hch
    rw [wfold_cons]
    cases happ : app m with
    | none => exact ih acc hacc (fun x hx c hc => hch x (List.mem_cons_of_mem m hx) c hc)
    | some c =>
      refine ih (max acc (W c)) (max_le hacc (hch m (List.mem_cons_self m rest) c happ)) ?_
      exact fun x hx c2 hc2 => hch x (List.mem_cons_of_mem m hx) c2 hc2

/-- One-step unfolding of `bfold` over a cons cell. -/
theorem bfold_cons (app : Move → Option Scenario) (W : Scenario → Int) (m : Move)
    (rest : List Move) (acc : Int) :
    bfold app W (m :: rest) acc =
      match app m with
      | none => bfold app W rest acc
      | some c => bfold app W rest (min acc (W c)) := by
  simp only [bfold, List.foldl_cons]
  cases app m <;> rfl

/-- `bfold` over a skipped move. -/
theorem bfold_cons_none (app : Move → Option Scenario) (W : Scenario → Int) (m : Move)
    (rest : List Move) (acc : Int) (h : app m = none) :
    bfold app W (m :: rest) acc = bfold app W rest acc := by
  rw [bfold_cons, h]

/-- `bfold` over an applied move. -/
theorem bfold_cons_some (app : Move → Option Scenario) (W : Scenario → Int) (m : Move)
    (rest : List Move) (acc : Int) (c : Scenario) (h : app m = some c) :
    bfold app W (m :: rest) acc = bfold app W rest (min acc (W c)) := by
  rw [bfold_cons, h]

/-- The minimising fold only shrinks its accumulator. -/
theorem bfold_le_acc (app : Move → Option Scenario) (W : Scenario → Int) :
    ∀ (l : List Move) (acc : Int), bfold app W l acc ≤ acc := by
  intro l
  induction l with
  | nil => intro acc; exact le_refl _
  | cons m rest ih =>
    intro acc
    rw [bfold_cons]
    cases app m with
    | none => exact ih acc
    | some c => exact le_trans (ih _) (min_le_left _ _)

/-- Lower bound of the minimising fold. -/
theorem bfold_ge (app : Move → Option Scenario) (W : Scenario → Int) (lo : Int) :
    ∀ (l : List Move) (acc : Int), lo ≤ acc →
      (∀ m ∈ l, ∀ c, app m = some c → lo ≤ W c) → lo ≤ bfold app W l acc := by
  intro l
  induction l with
  | nil => intro acc hacc _; exact hacc
  | cons m rest ih =>
    intro acc hacc hch
    rw [bfold_cons]
    cases happ : app m with
    | none => exact ih acc hacc (fun x hx c hc => hch x (List.mem_cons_of_mem m hx) c hc)
    | some c =>
      refine ih (min acc (W c)) (le_min hacc (hch m (List.mem_cons_self m rest) c happ)) ?_
      exact fun x hx c2 hc2 => hch x (List.mem_cons_of_mem m hx) c2 hc2

/-- Shape of `spec_minimax` at depth zero. -/
theorem spec_minimax_zero_eq (qf : Nat) (sc : Scenario) (pv : List Move) :
    spec_minimax 0 qf sc pv =
      if sc.generate_moves false pv = [] then no_moves_score sc else spec_quiescence qf sc :=
  rfl

/-- Shape of `spec_minimax` at a successor depth, through the proof-side
folds. -/
theorem spec_minimax_succ_eq (d qf : Nat) (sc : Scenario) (pv : List Move) :
    spec_minimax (d + 1) qf sc pv =
      if sc.generate_moves false pv = [] then no_moves_score sc
      else
        match sc.board.turn with
        | Color.White =>
          wfold sc.apply_move (fun c => spec_minimax d (qf - 1) c [])
            (sc.generate_moves false pv) I32_MIN
        | Color.Black =>
          bfold sc.apply_move (fun c => spec_minimax d (qf - 1) c [])
            (sc.generate_moves false pv) I32_MAX :=
  rfl

/-- Shape of `minimax_aux` at depth zero. -/
theorem minimax_aux_zero_eq (qf : Nat) (sc : Scenario) (a b : Int) (pv : List Move) :
    minimax_aux 0 qf sc a b pv =
      if sc.generate_moves false pv = [] then (no_moves_score sc, pv)
      else quiescence_aux qf sc a b pv :=
  rfl

/-- Shape of `minimax_aux` at a successor depth. -/
theorem minimax_aux_succ_eq (d qf : Nat) (sc : Scenario) (a b : Int) (pv : List Move) :
    minimax_aux (d + 1) qf sc a b pv =
      if sc.generate_moves false pv = [] then (no_moves_score sc, pv)
      else
        match sc.board.turn with
        | Color.White =>
          mloop_white (fun nsc x y => minimax_aux d (qf - 1) nsc x y []) sc
            (sc.generate_moves false pv) a b I32_MIN []
        | Color.Black =>
          mloop_black (fun nsc x y => minimax_aux d (qf - 1) nsc x y []) sc
            (sc.generate_moves false pv) a b I32_MAX [] :=
  rfl

/-- Shape of `quiescence_aux` with no remaining quiescence depth. -/
theorem quiescence_aux_zero_eq (sc : Scenario) (a b : Int) (pv : List Move) :
    quiescence_aux 0 sc a b pv =
      if static_diff sc.board ≥ b then (b, pv) else (static_diff sc.board, pv) :=
  rfl

/-- An exact score satisfies the windowed approximation in any window. -/
theorem abApprox_exact (V a b : Int) : abApprox V V a b :=
  ⟨fun h => ⟨le_refl V, h⟩, fun _ _ => rfl, fun h => ⟨h, le_refl V⟩⟩

/-- The depth-zero quiescence leaf satisfies the windowed approximation of
its exhaustive value, the static evaluation. -/
theorem quiescence_zero_approx (sc : Scenario) (a b : Int) (pv : List Move) (hab : a < b) :
    abApprox (static_diff sc.board) ((quiescence_aux 0 sc a b pv).1) a b := by
  rw [quiescence_aux_zero_eq]
  by_cases h : static_diff sc.board ≥ b
  · rw [if_pos h]
    exact ⟨fun hSa => absurd hSa (by omega), fun _ hlt => absurd h (by omega),
      fun _ => ⟨le_refl b, h⟩⟩
  · rw [if_neg h]
    exact abApprox_exact _ _ _

/-- i32 wrap-around stays inside the i32 range. -/
theorem wrap32_bounds (z : Int) : I32_MIN ≤ wrap32 z ∧ wrap32 z ≤ I32_MAX := by
  unfold wrap32 I32_MIN I32_MAX
  have h1 : 0 ≤ (z + 2 ^ 31) % 2 ^ 32 := Int.emod_nonneg _ (by norm_num)
  have h2 : (z + 2 ^ 31) % 2 ^ 32 < 2 ^ 32 := Int.emod_lt_of_pos _ (by norm_num)
  have e : (2 : Int) ^ 32 = 2 ^ 31 * 2 := by norm_num
  constructor
  · linarith
  · linarith

/-- The checkmate/stalemate block stays inside the i32 range. -/
theorem no_moves_score_bounds (sc : Scenario) :
    I32_MIN ≤ no_moves_score sc ∧ no_moves_score sc ≤ I32_MAX := by
  unfold no_moves_score I32_MIN I32_MAX
  split
  · constructor <;> norm_num
  · split
    · constructor <;> norm_num
    · constructor <;> norm_num

/-- One-step unfolding of the White alpha-beta loop over an applied move. -/
theorem mloop_white_cons_some (f : Scenario → Int → Int → Int × List Move) (sc : Scenario)
    (m : Move) (rest : List Move) (alpha B maxEval : Int) (localPv : List Move) (c : Scenario)
    (happ : sc.apply_move m = some c) :
    mloop_white f sc (m :: rest) alpha B maxEval localPv =
      if (if alpha ≥ (f c alpha B).1 then alpha else (f c alpha B).1) ≥ B then
        (if (f c alpha B).1 > maxEval then (f c alpha B).1 else maxEval,
         if (f c alpha B).1 > maxEval then m :: (f c alpha B).2 else localPv)
      else
        mloop_white f sc rest (if alpha ≥ (f c alpha B).1 then alpha else (f c alpha B).1) B
          (if (f c alpha B).1 > maxEval then (f c alpha B).1 else maxEval)
          (if (f c alpha B).1 > maxEval then m :: (f c alpha B).2 else localPv) := by
  simp only [mloop_white]
  rw [happ]

/-- One-step unfolding of the White alpha-beta loop over a skipped move. -/
theorem mloop_white_cons_none (f : Scenario → Int → Int → Int × List Move) (sc : Scenario)
    (m : Move) (rest : List Move) (alpha B maxEval : Int) (localPv : List Move)
    (happ : sc.apply_move m = none) :
    mloop_white f sc (m :: rest) alpha B maxEval localPv =
      mloop_white f sc rest alpha B maxEval localPv := by
  simp only [mloop_white]
  rw [happ]

/-- One-step unfolding of the Black alpha-beta loop over an applied move. -/
theorem mloop_black_cons_some (f : Scenario → Int → Int → Int × List Move) (sc : Scenario)
    (m : Move) (rest : List Move) (A beta minEval : Int) (localPv : List Move) (c : Scenario)
    (happ : sc.apply_move m = some c) :
    mloop_black f sc (m :: rest) A beta minEval localPv =
      if A ≥ (if beta ≤ (f c A beta).1 then beta else (f c A beta).1) then
        (if (f c A beta).1 < minEval then (f c A beta).1 else minEval,
         if (f c A beta).1 < minEval then m :: (f c A beta).2 else localPv)
      else
        mloop_black f sc rest A (if beta ≤ (f c A beta).1 then beta else (f c A beta).1)
          (if (f c A beta).1 < minEval then (f c A beta).1 else minEval)
          (if (f c A beta).1 < minEval then m :: (f c A beta).2 else localPv) := by
  simp only [mloop_black]
  rw [happ]

/-- One-step unfolding of the Black alpha-beta loop over a skipped move. -/
theorem mloop_black_cons_none (f : Scenario → Int → Int → Int × List Move) (sc : Scenario)
    (m : Move) (rest : List Move) (A beta minEval : Int) (localPv : List Move)
    (happ : sc.apply_move m = none) :
    mloop_black f sc (m :: rest) A beta minEval localPv =
      mloop_black f sc rest A beta minEval localPv := by
  simp only [mloop_black]
  rw [happ]

/-- Windowed-approximation invariant of the White fail-soft alpha-beta loop:
if every recursive call approximates its exhaustive child value in its own
window, the loop's returned score approximates the maximising fold of the
child values in the original window `(A0, B)`.  `P` is the exhaustive value
of the already-processed prefix. -/
theorem mloop_white_approx (f : Scenario → Int → Int → Int × List Move)
    (W : Scenario → Int) (sc : Scenario) (A0 B : Int) :
    ∀ (l : List Move) (alpha maxEval P : Int) (localPv : List Move),
      (∀ m ∈ l, ∀ c, sc.apply_move m = some c → ∀ a, A0 ≤ a → a < B →
        abApprox (W c) ((f c a B).1) a B) →
      A0 ≤ alpha → alpha < B → P < B →
      (P ≤ A0 → alpha = A0 ∧ P ≤ maxEval ∧ maxEval ≤ A0) →
      (A0 < P → alpha = P ∧ maxEval = P) →
      abApprox (wfold sc.apply_move W l P) ((mloop_white f sc l alpha B maxEval localPv).1)
        A0 B := by
  intro l
  induction l with
  | nil =>
    intro alpha maxEval P localPv hch hA0 hab hPb hlow hmid
    refine ⟨?_, ?_, ?_⟩
    · intro hPA
      obtain ⟨_, h1, h2⟩ := hlow hPA
      exact ⟨h1, h2⟩
    · intro h1 _
      exact (hmid h1).2
    · intro hBP
      exact absurd hBP (not_le.mpr hPb)
  | cons m rest ih =>
    intro alpha maxEval P localPv hch hA0 hab hPb hlow hmid
    have hchrest : ∀ m2 ∈ rest, ∀ c, sc.apply_move m2 = some c → ∀ a, A0 ≤ a → a < B →
        abApprox (W c) ((f c a B).1) a B :=
      fun m2 hm2 => hch m2 (List.mem_cons_of_mem m hm2)
    have hMEα : maxEval ≤ alpha := by
      rcases le_or_lt P A0 with hP | hP
      · obtain ⟨h1, h2, h3⟩ := hlow hP
        omega
      · obtain ⟨h1, h2⟩ := hmid hP
        omega
    have hPα : P ≤ alpha := by
      rcases le_or_lt P A0 with hP | hP
      · obtain ⟨h1, _, _⟩ := hlow hP
        omega
      · obtain ⟨h1, _⟩ := hmid hP
        omega
    cases happ : sc.apply_move m with
    | none =>
      rw [wfold_cons_none sc.apply_move W m rest P happ,
        mloop_white_cons_none f sc m rest alpha B maxEval localPv happ]
      exact ih alpha maxEval P localPv hchrest hA0 hab hPb hlow hmid
    | some c =>
      have hc := hch m (List.mem_cons_self m rest) c happ alpha hA0 hab
      rw [wfold_cons_some sc.apply_move W m rest P c happ,
        mloop_white_cons_some f sc m rest alpha B maxEval localPv c happ]
      by_cases hW1 : W c ≤ alpha
      · obtain ⟨hWr, hrα⟩ := hc.1 hW1
        rw [if_pos hrα, if_neg (not_le.mpr hab)]
        refine ih alpha _ (max P (W c)) _ hchrest hA0 hab (by omega) ?_ ?_
        · intro hP1
          have hPA : P ≤ A0 := le_trans (le_max_left _ _) hP1
          have hWA : W c ≤ A0 := le_trans (le_max_right _ _) hP1
          obtain ⟨he, h2, h3⟩ := hlow hPA
          refine ⟨he, ?_, ?_⟩ <;> split_ifs <;> omega
        · intro hP1
          rcases le_or_lt P A0 with hP | hP
          · obtain ⟨he, h2, h3⟩ := hlow hP
            exfalso
            omega
          · obtain ⟨he, h2⟩ := hmid hP
            refine ⟨by omega, ?_⟩
            split_ifs <;> omega
      · by_cases hW2 : W c < B
        · have hαW : alpha < W c := lt_of_not_ge hW1
          have hr : (f c alpha B).1 = W c := hc.2.1 hαW hW2
          have hgt : (f c alpha B).1 > maxEval := by omega
          have hnge : ¬ alpha ≥ (f c alpha B).1 := by omega
          rw [if_pos hgt, if_neg hnge, if_neg (show ¬ (f c alpha B).1 ≥ B by omega)]
          refine ih _ _ (max P (W c)) _ hchrest (by omega) (by omega) (by omega) ?_ ?_
          · intro hP1
            exfalso
            omega
          · intro hP1
            omega
        · have hBW : B ≤ W c := le_of_not_lt hW2
          obtain ⟨hBr, hrW⟩ := hc.2.2 hBW
          have hgt : (f c alpha B).1 > maxEval := by omega
          have hnge : ¬ alpha ≥ (f c alpha B).1 := by omega
          rw [if_pos hgt, if_neg hnge, if_pos (show (f c alpha B).1 ≥ B from hBr)]
          have hV : W c ≤ wfold sc.apply_move W rest (max P (W c)) :=
            le_trans (le_max_right _ _) (wfold_ge_acc sc.apply_move W rest _)
          exact ⟨fun hva => absurd hva (by omega), fun _ hvb => absurd hvb (by omega),
            fun _ => ⟨hBr, le_trans hrW hV⟩⟩

/-- Windowed-approximation invariant of the Black fail-soft alpha-beta loop
(mirror of the White case): `P` is the exhaustive value of the processed
prefix, `B0` the original beta. -/
theorem mloop_black_approx (f : Scenario → Int → Int → Int × List Move)
    (W : Scenario → Int) (sc : Scenario) (A B0 : Int) :
    ∀ (l : List Move) (beta minEval P : Int) (localPv : List Move),
      (∀ m ∈ l, ∀ c, sc.apply_move m = some c → ∀ b, b ≤ B0 → A < b →
        abApprox (W c) ((f c A b).1) A b) →
      beta ≤ B0 → A < beta → A < P →
      (B0 ≤ P → beta = B0 ∧ minEval ≤ P ∧ B0 ≤ minEval) →
      (P < B0 → beta = P ∧ minEval = P) →
      abApprox (bfold sc.apply_move W l P) ((mloop_black f sc l A beta minEval localPv).1)
        A B0 := by
  intro l
  induction l with
  | nil =>
    intro beta minEval P localPv hch hB0 hab hPa hhigh hmid
    refine ⟨?_, ?_, ?_⟩
    · intro hPA
      exact absurd hPA (not_le.mpr hPa)
    · intro _ h2
      exact (hmid h2).2
    · intro hBP
      obtain ⟨_, h1, h2⟩ := hhigh hBP
      exact ⟨h2, h1⟩
  | cons m rest ih =>
    intro beta minEval P localPv hch hB0 hab hPa hhigh hmid
    have hchrest : ∀ m2 ∈ rest, ∀ c, sc.apply_move m2 = some c → ∀ b, b ≤ B0 → A < b →
        abApprox (W c) ((f c A b).1) A b :=
      fun m2 hm2 => hch m2 (List.mem_cons_of_mem m hm2)
    have hMEβ : beta ≤ minEval := by
      rcases lt_or_le P B0 with hP | hP
      · obtain ⟨h1, h2⟩ := hmid hP
        omega
      · obtain ⟨h1, h2, h3⟩ := hhigh hP
        omega
    have hPβ : beta ≤ P := by
      rcases lt_or_le P B0 with hP | hP
      · obtain ⟨h1, _⟩ := hmid hP
        omega
      · obtain ⟨h1, _, _⟩ := hhigh hP
        omega
    cases happ : sc.apply_move m with
    | none =>
      rw [bfold_cons_none sc.apply_move W m rest P happ,
        mloop_black_cons_none f sc m rest A beta minEval localPv happ]
      exact ih beta minEval P localPv hchrest hB0 hab hPa hhigh hmid
    | some c =>
      have hc := hch m (List.mem_cons_self m rest) c happ beta hB0 hab
      rw [bfold_cons_some sc.apply_move W m rest P c happ,
        mloop_black_cons_some f sc m rest A beta minEval localPv c happ]
      by_cases hW1 : beta ≤ W c
      · obtain ⟨hβr, hrW⟩ := hc.2.2 hW1
        rw [if_pos hβr, if_neg (not_le.mpr hab)]
        refine ih beta _ (min P (W c)) _ hchrest hB0 hab (by omega) ?_ ?_
        · intro hP1
          have hPA : B0 ≤ P := le_trans hP1 (min_le_left _ _)
          have hWA : B0 ≤ W c := le_trans hP1 (min_le_right _ _)
          obtain ⟨he, h2, h3⟩ := hhigh hPA
          refine ⟨he, ?_, ?_⟩ <;> split_ifs <;> omega
        · intro hP1
          rcases lt_or_le P B0 with hP | hP
          · obtain ⟨he, h2⟩ := hmid hP
            refine ⟨by omega, ?_⟩
            split_ifs <;> omega
          · obtain ⟨he, h2, h3⟩ := hhigh hP
            exfalso
            omega
      · by_cases hW2 : A < W c
        · have hWβ : W c < beta := lt_of_not_ge hW1
          have hr : (f c A beta).1 = W c := hc.2.1 hW2 hWβ
          have hlt : (f c A beta).1 < minEval := by omega
          have hnge : ¬ beta ≤ (f c A beta).1 := by omega
          rw [if_pos hlt, if_neg hnge, if_neg (show ¬ A ≥ (f c A beta).1 by omega)]
          refine ih _ _ (min P (W c)) _ hchrest (by omega) (by omega) (by omega) ?_ ?_
          · intro hP1
            exfalso
            omega
          · intro hP1
            omega
        · have hWA : W c ≤ A := le_of_not_lt hW2
          obtain ⟨hWr, hrA⟩ := hc.1 hWA
          have hlt : (f c A beta).1 < minEval := by omega
          have hnge : ¬ beta ≤ (f c A beta).1 := by omega
          rw [if_pos hlt, if_neg hnge, if_pos (show A ≥ (f c A beta).1 from hrA)]
          have hV : bfold sc.apply_move W rest (min P (W c)) ≤ W c :=
            le_trans (bfold_le_acc sc.apply_move W rest _) (min_le_right _ _)
          exact ⟨fun _ => ⟨le_trans hV hWr, hrA⟩, fun hva _ => absurd hva (by omega),
            fun hvb => absurd hvb (by omega)⟩

/-- The exhaustive minimax value with zero quiescence budget stays inside the
i32 range. -/
theorem spec_minimax_bounds :
    ∀ (d : Nat) (sc : Scenario) (pv : List Move),
      I32_MIN ≤ spec_minimax d 0 sc pv ∧ spec_minimax d 0 sc pv ≤ I32_MAX := by
  intro d
  induction d with
  | zero =>
    intro sc pv
    rw [spec_minimax_zero_eq]
    by_cases h : sc.generate_moves false pv = []
    · rw [if_pos h]
      exact no_moves_score_bounds sc
    · rw [if_neg h]
      exact wrap32_bounds _
  | succ d ih =>
    intro sc pv
    rw [spec_minimax_succ_eq]
    by_cases h : sc.generate_moves false pv = []
    · rw [if_pos h]
      exact no_moves_score_bounds sc
    · rw [if_neg h]
      cases ht : sc.board.turn with
      | White =>
        refine ⟨wfold_ge_acc _ _ _ _, wfold_le _ _ _ _ _ (by decide) ?_⟩
        exact fun m _ c _ => (ih c []).2
      | Black =>
        refine ⟨bfold_ge _ _ _ _ _ (by decide) ?_, bfold_le_acc _ _ _ _⟩
        exact fun m _ c _ => (ih c []).1

/-- The pruned search approximates the exhaustive minimax value in any
window inside the i32 range (zero quiescence budget). -/
theorem minimax_approx :
    ∀ (d : Nat) (sc : Scenario) (a b : Int) (pv : List Move),
      I32_MIN ≤ a → a < b → b ≤ I32_MAX →
      abApprox (spec_minimax d 0 sc pv) ((minimax_aux d 0 sc a b pv).1) a b := by
  intro d
  induction d with
  | zero =>
    intro sc a b pv hMa hab hbM
    rw [spec_minimax_zero_eq, minimax_aux_zero_eq]
    by_cases h : sc.generate_moves false pv = []
    · rw [if_pos h, if_pos h]
      exact abApprox_exact _ _ _
    · rw [if_neg h, if_neg h]
      exact quiescence_zero_approx sc a b pv hab
  | succ d ih =>
    intro sc a b pv hMa hab hbM
    rw [spec_minimax_succ_eq, minimax_aux_succ_eq]
    by_cases h : sc.generate_moves false pv = []
    · rw [if_pos h, if_pos h]
      exact abApprox_exact _ _ _
    · rw [if_neg h, if_neg h]
      cases ht : sc.board.turn with
      | White =>
        refine mloop_white_approx (fun nsc x y => minimax_aux d (0 - 1) nsc x y [])
          (fun c => spec_minimax d (0 - 1) c []) sc a b (sc.generate_moves false pv) a
          I32_MIN I32_MIN [] ?_ (le_refl a) hab (lt_of_le_of_lt hMa hab) ?_ ?_
        · intro m _ c _ x hax hxb
          exact ih c x b [] (le_trans hMa hax) hxb hbM
        · intro _
          exact ⟨rfl, le_refl _, hMa⟩
        · intro hcon
          exact absurd hcon (not_lt.mpr hMa)
      | Black =>
        refine mloop_black_approx (fun nsc x y => minimax_aux d (0 - 1) nsc x y [])
          (fun c => spec_minimax d (0 - 1) c []) sc a b (sc.generate_moves false pv) b
          I32_MAX I32_MAX [] ?_ (le_refl b) hab (lt_of_lt_of_le hab hbM) ?_ ?_
        · intro m _ c _ y hyb hay
          exact ih c a y [] hMa hay (le_trans hyb hbM)
        · intro _
          exact ⟨rfl, le_refl _, hbM⟩
        · intro hcon
          exact absurd hcon (not_lt.mpr hbM)

/-- C3 (amended): with a zero quiescence budget (`max_depth ≤ depth_counter`,
so horizon leaves are evaluated by the depth-limited quiescence, which then
returns the static evaluation clipped at beta), the alpha-beta pruned search
started with the full window returns exactly the score of the exhaustive
non-pruned minimax over the same generated move set, with the same static
leaf evaluation and the same checkmate/stalemate scores at terminal nodes.
With a positive quiescence budget the equality fails, because the quiescence
leaf evaluation is not the exhaustive critical-move minimax the spec
describes (see the counterexample). -/
theorem C3_alpha_beta_equivalence (sc : Scenario) (depth max_depth depth_counter : Int)
    (pv : List Move) (h : max_depth ≤ depth_counter) :
    (minimax_alpha_beta_pv sc depth max_depth I32_MIN I32_MAX depth_counter pv).1 =
      spec_minimax depth.toNat 0 sc pv := by
  unfold minimax_alpha_beta_pv
  have h0 : (max_depth - depth_counter).toNat = 0 := by omega
  rw [h0]
  obtain ⟨h1, h2, h3⟩ :=
    minimax_approx depth.toNat sc I32_MIN I32_MAX pv (le_refl _) (by decide) (le_refl _)
  obtain ⟨hb1, hb2⟩ := spec_minimax_bounds depth.toNat sc pv
  rcases lt_trichotomy (spec_minimax depth.toNat 0 sc pv) I32_MIN with hv | hv | hv
  · exact absurd hb1 (not_le.mpr hv)
  · obtain ⟨ha, hc⟩ := h1 (le_of_eq hv)
    omega
  · rcases lt_or_le (spec_minimax depth.toNat 0 sc pv) I32_MAX with hv2 | hv2
    · exact h2 hv hv2
    · obtain ⟨ha, hc⟩ := h3 hv2
      omega

/-- Counterexample for C3 as stated (with the quiescence budget the
implementation actually runs at the horizon): on the quiet board `bQuiet`
the full-window pruned search at depth 0 returns 0 — the quiescence value,
which is the checkmate/stalemate block because no critical moves exist —
while the exhaustive minimax over the same move set with the spec's
quiescence leaf returns the static evaluation 1000. -/
theorem C3_counterexample :
    (minimax_alpha_beta_pv ⟨bQuiet⟩ 0 3 I32_MIN I32_MAX 0 []).1 = 0 ∧
    spec_minimax (0 : Int).toNat 3 ⟨bQuiet⟩ [] = 1000 ∧
    (minimax_alpha_beta_pv ⟨bQuiet⟩ 0 3 I32_MIN I32_MAX 0 []).1 ≠
      spec_minimax (0 : Int).toNat 3 ⟨bQuiet⟩ [] := by
  have h1 : (minimax_alpha_beta_pv ⟨bQuiet⟩ 0 3 I32_MIN I32_MAX 0 []).1 = 0 := by rfl
  have h2 : spec_minimax (0 : Int).toNat 3 ⟨bQuiet⟩ [] = 1000 := by rfl
  exact ⟨h1, h2, by rw [h1, h2]; decide⟩

/-- Witness for the amended C3 at depth 2 with zero quiescence budget on the
concrete board `bQuiet`. -/
theorem C3_alpha_beta_equivalence_witness :
    (minimax_alpha_beta_pv ⟨bQuiet⟩ 2 0 I32_MIN I32_MAX 0 []).1 =
      spec_minimax (2 : Int).toNat 0 ⟨bQuiet⟩ [] :=
  C3_alpha_beta_equivalence ⟨bQuiet⟩ 2 0 0 [] (by decide)

/-!  Claim C10: population-count toolkit. -/

/-- A bit set in a value below `2 ^ 64` has index below 64. -/
theorem testBit_lt_64 {x i : Nat} (hx : x < 2 ^ 64) (h : x.testBit i = true) : i < 64 := by
  by_contra hc
  push_neg at hc
  have hxx : x < 2 ^ i := lt_of_lt_of_le hx (Nat.pow_le_pow_right (by omega) hc)
  rw [Nat.testBit_lt_two_pow hxx] at h
  exact absurd h (by simp)

/-- Unfolding equation of the proof-side popcount. -/
theorem pc_def (n : Nat) : pc n = if n = 0 then 0 else pc (n / 2) + n % 2 := by
  conv_lhs => rw [pc]
  split
  · rfl
  · rfl

/-- `pc 0 = 0`. -/
theorem pc_zero : pc 0 = 0 := by
  rw [pc_def]
  rfl

/-- `pc` ignores a trailing zero bit. -/
theorem pc_two_mul (x : Nat) : pc (2 * x) = pc x := by
  rcases Nat.eq_zero_or_pos x with rfl | hx
  · rfl
  · rw [pc_def, if_neg (by omega)]
    have h1 : 2 * x / 2 = x := by omega
    have h2 : 2 * x % 2 = 0 := by omega
    rw [h1, h2]
    rfl

/-- `pc` counts a trailing one bit. -/
theorem pc_two_mul_add_one (x : Nat) : pc (2 * x + 1) = pc x + 1 := by
  rw [pc_def, if_neg (by omega)]
  have h1 : (2 * x + 1) / 2 = x := by omega
  have h2 : (2 * x + 1) % 2 = 1 := by omega
  rw [h1, h2]

/-- An odd value and its predecessor share exactly the bits above bit 0. -/
theorem land_odd_even (m : Nat) : (2 * m + 1) &&& (2 * m) = 2 * m := by
  apply Nat.eq_of_testBit_eq
  intro i
  cases i with
  | zero => simp [Nat.testBit_land, Nat.testBit_zero, Nat.mul_mod_right]
  | succ j =>
    have h1 : (2 * m + 1) / 2 = m := by omega
    have h2 : 2 * m / 2 = m := by omega
    rw [Nat.testBit_land, Nat.testBit_succ, Nat.testBit_succ, h1, h2, Bool.and_self]

/-- Clearing the lowest set bit of an even value happens above bit 0. -/
theorem land_even_pred (m : Nat) :
    (2 * m) &&& (2 * m - 1) = 2 * (m &&& (m - 1)) := by
  apply Nat.eq_of_testBit_eq
  intro i
  cases i with
  | zero => simp [Nat.testBit_land, Nat.testBit_zero, Nat.mul_mod_right]
  | succ j =>
    have h1 : 2 * m / 2 = m := by omega
    have h2 : (2 * m - 1) / 2 = m - 1 := by omega
    have h3 : 2 * (m &&& (m - 1)) / 2 = m &&& (m - 1) := by omega
    rw [Nat.testBit_land, Nat.testBit_succ, Nat.testBit_succ, Nat.testBit_succ, h1, h2, h3,
      Nat.testBit_land]

/-- Clearing the lowest set bit decrements the popcount. -/
theorem pc_dropLow : ∀ n : Nat, n ≠ 0 → pc (dropLow n) + 1 = pc n := by
  intro n
  induction n using Nat.strong_induction_on with
  | _ n ih =>
    intro hn
    rcases Nat.mod_two_eq_zero_or_one n with he | ho
    · obtain ⟨m, rfl⟩ : ∃ m, n = 2 * m := ⟨n / 2, by omega⟩
      have hm0 : m ≠ 0 := by omega
      have hd : dropLow (2 * m) = 2 * dropLow m := by
        unfold dropLow
        exact land_even_pred m
      rw [hd, pc_two_mul, pc_two_mul]
      exact ih m (by omega) hm0
    · obtain ⟨m, rfl⟩ : ∃ m, n = 2 * m + 1 := ⟨n / 2, by omega⟩
      have hd : dropLow (2 * m + 1) = 2 * m := by
        unfold dropLow
        have he1 : 2 * m + 1 - 1 = 2 * m := by omega
        rw [he1]
        exact land_odd_even m
      rw [hd, pc_two_mul, pc_two_mul_add_one]

/-- The popcount of a value below `2 ^ f` is at most `f`. -/
theorem pc_le (f : Nat) : ∀ n : Nat, n < 2 ^ f → pc n ≤ f := by
  induction f with
  | zero =>
    intro n hn
    have h0 : n = 0 := by omega
    subst h0
    rw [pc_zero]
  | succ f ih =>
    intro n hn
    rcases Nat.eq_zero_or_pos n with rfl | hpos
    · rw [pc_zero]
      omega
    · rw [pc_def, if_neg (by omega)]
      have hp : 2 ^ (f + 1) = 2 ^ f * 2 := by rw [pow_succ]
      have := ih (n / 2) (by omega)
      omega

/-- The fuelled lowest-bit loop lists exactly `pc n` single bits when the fuel
covers the popcount. -/
theorem single_squares_aux_length :
    ∀ (f n : Nat), pc n ≤ f → (single_squares_aux f n).length = pc n := by
  intro f
  induction f with
  | zero =>
    intro n hn
    have h0 : pc n = 0 := by omega
    simp [single_squares_aux, h0]
  | succ f ih =>
    intro n hn
    by_cases h0 : n = 0
    · subst h0
      simp [single_squares_aux, pc_zero]
    · have hd := pc_dropLow n h0
      have hlen : (single_squares_aux (f + 1) n).length =
          (single_squares_aux f (dropLow n)).length + 1 := by
        simp [single_squares_aux, h0]
      rw [hlen, ih (dropLow n) (by omega)]
      omega

/-- `single_squares` lists exactly `pc n` single bits for a u64 value. -/
theorem single_squares_length (n : Nat) (hn : pc n ≤ 64) :
    (single_squares n).length = pc n :=
  single_squares_aux_length 64 n hn

/-- `single_idx` has the same length. -/
theorem single_idx_length (n : Nat) (hn : pc n ≤ 64) :
    (ChessC.single_idx n).length = pc n := by
  unfold ChessC.single_idx
  rw [List.length_map]
  exact single_squares_length n hn

/-- The source popcount loop counts the same list. -/
theorem count_bits_aux_eq :
    ∀ (f n : Nat), count_bits_aux f n = ((single_squares_aux f n).length : Int) := by
  intro f
  induction f with
  | zero => intro n; simp [count_bits_aux, single_squares_aux]
  | succ f ih =>
    intro n
    by_cases h0 : n = 0
    · subst h0
      simp [count_bits_aux, single_squares_aux]
    · simp [count_bits_aux, single_squares_aux, h0, ih (dropLow n)]

/-- `count_bits` agrees with the proof-side popcount on u64 values. -/
theorem count_bits_eq_pc (n : Nat) (hn : pc n ≤ 64) : count_bits n = (pc n : Int) := by
  unfold count_bits
  rw [count_bits_aux_eq, single_squares_aux_length 64 n hn]

/-- Every extracted single bit is at most the original value. -/
theorem single_squares_aux_le : ∀ (f n : Nat), ∀ x ∈ single_squares_aux f n, x ≤ n := by
  intro f
  induction f with
  | zero => intro n x hx; simp [single_squares_aux] at hx
  | succ f ih =>
    intro n x hx
    by_cases h0 : n = 0
    · subst h0
      simp [single_squares_aux] at hx
    · simp only [single_squares_aux, if_neg h0] at hx
      rcases List.mem_cons.mp hx with rfl | hx2
      · exact Nat.and_le_left
      · exact le_trans (ih (dropLow n) x hx2) Nat.and_le_left

/-!  Claim C10: bitwise-subset toolkit. -/

/-- Disjoint values share no set bit. -/
theorem testBit_zero_not_both {a b : Nat} (hab : a &&& b = 0) (i : Nat) :
    ¬(a.testBit i = true ∧ b.testBit i = true) := by
  intro hple
  obtain ⟨h1, h2⟩ := hple
  have h3 : (a &&& b).testBit i = true := by
    rw [Nat.testBit_land, h1, h2]
    rfl
  rw [hab, Nat.zero_testBit] at h3
  exact absurd h3 (by simp)

/-- Division by two commutes with bitwise or. -/
theorem lor_div_two (a b : Nat) : (a ||| b) / 2 = a / 2 ||| b / 2 := by
  apply Nat.eq_of_testBit_eq
  intro i
  rw [Nat.testBit_lor, ← Nat.testBit_succ, ← Nat.testBit_succ, ← Nat.testBit_succ,
    Nat.testBit_lor]

/-- Division by two commutes with bitwise and. -/
theorem land_div_two (a b : Nat) : (a &&& b) / 2 = a / 2 &&& b / 2 := by
  apply Nat.eq_of_testBit_eq
  intro i
  rw [Nat.testBit_land, ← Nat.testBit_succ, ← Nat.testBit_succ, ← Nat.testBit_succ,
    Nat.testBit_land]

/-- The parity of a value is its lowest bit. -/
theorem mod_two_of_testBit (n : Nat) : n % 2 = if n.testBit 0 then 1 else 0 := by
  rcases Nat.mod_two_eq_zero_or_one n with h | h <;> simp [Nat.testBit_zero, h]

/-- Parity of a union, as an arithmetic statement. -/
theorem lor_mod_two_iff (a b : Nat) : (a ||| b) % 2 = 1 ↔ a % 2 = 1 ∨ b % 2 = 1 := by
  simp

/-- Disjoint values are not both odd. -/
theorem land_mod_two_not_both {a b : Nat} (hab : a &&& b = 0) : ¬(a % 2 = 1 ∧ b % 2 = 1) := by
  intro hcon
  obtain ⟨h1, h2⟩ := hcon
  have t1 : a.testBit 0 = true := by rw [Nat.testBit_zero]; simp [h1]
  have t2 : b.testBit 0 = true := by rw [Nat.testBit_zero]; simp [h2]
  exact testBit_zero_not_both hab 0 ⟨t1, t2⟩

/-- The sum of two disjoint values is their union (no carries). -/
theorem add_eq_lor_of_disjoint : ∀ a b : Nat, a &&& b = 0 → a + b = a ||| b := by
  intro a
  induction a using Nat.strong_induction_on with
  | _ a ih =>
    intro b hab
    rcases Nat.eq_zero_or_pos a with rfl | ha
    · simp
    · have hd2 : a / 2 &&& b / 2 = 0 := by
        rw [← land_div_two, hab]
      have hrec := ih (a / 2) (by omega) (b / 2) hd2
      have hor : (a ||| b) / 2 = a / 2 ||| b / 2 := lor_div_two a b
      have heo : a ||| b = 2 * ((a ||| b) / 2) + (a ||| b) % 2 := by omega
      rw [hor] at heo
      have hlm := lor_mod_two_iff a b
      have hnb := land_mod_two_not_both hab
      have h1 : a = 2 * (a / 2) + a % 2 := by omega
      have h2 : b = 2 * (b / 2) + b % 2 := by omega
      omega

/-- Popcount is additive over disjoint values. -/
theorem pc_or_disjoint : ∀ a b : Nat, a &&& b = 0 → pc (a ||| b) = pc a + pc b := by
  intro a
  induction a using Nat.strong_induction_on with
  | _ a ih =>
    intro b hab
    rcases Nat.eq_zero_or_pos a with rfl | ha
    · simp [pc_zero]
    · have hd2 : a / 2 &&& b / 2 = 0 := by
        rw [← land_div_two, hab]
      have hrec := ih (a / 2) (by omega) (b / 2) hd2
      have hor : (a ||| b) / 2 = a / 2 ||| b / 2 := lor_div_two a b
      have hone : a ||| b ≠ 0 := by
        intro h0
        have ha0 : a = 0 := by
          apply Nat.eq_of_testBit_eq
          intro i
          have h1 := congrArg (fun t => t.testBit i) h0
          simp only [Nat.testBit_lor, Nat.zero_testBit] at h1
          rw [Nat.zero_testBit]
          cases hai : a.testBit i
          · rfl
          · rw [hai] at h1
            simp at h1
        omega
      have hpa : pc a = pc (a / 2) + a % 2 := by rw [pc_def, if_neg (by omega)]
      have hpb : pc b = pc (b / 2) + b % 2 := by
        rcases Nat.eq_zero_or_pos b with rfl | hbp
        · simp [pc_zero]
        · rw [pc_def, if_neg (by omega)]
      have hpo : pc (a ||| b) = pc (a / 2 ||| b / 2) + (a ||| b) % 2 := by
        rw [pc_def, if_neg hone, hor]
      have hlm := lor_mod_two_iff a b
      have hnb := land_mod_two_not_both hab
      omega

/-- Zero is a bitwise subset of anything. -/
theorem bitSub_zero (x : Nat) : BitSub 0 x := by
  intro i hi
  rw [Nat.zero_testBit] at hi
  exact absurd hi (by simp)

/-- Transitivity of the bitwise-subset order. -/
theorem bitSub_trans {a b c : Nat} (h1 : BitSub a b) (h2 : BitSub b c) : BitSub a c :=
  fun i hi => h2 i (h1 i hi)

/-- An intersection is a subset of its left operand. -/
theorem bitSub_land_left (a b : Nat) : BitSub (a &&& b) a := by
  intro i hi
  rw [Nat.testBit_land] at hi
  simp only [Bool.and_eq_true] at hi
  exact hi.1

/-- The left operand embeds in a union. -/
theorem bitSub_lor_left (a b : Nat) : BitSub a (a ||| b) := by
  intro i hi
  rw [Nat.testBit_lor, hi]
  rfl

/-- The right operand embeds in a union. -/
theorem bitSub_lor_right (a b : Nat) : BitSub b (a ||| b) := by
  intro i hi
  rw [Nat.testBit_lor, hi, Bool.or_true]

/-- A union is the least upper bound. -/
theorem bitSub_lor_lub {a b c : Nat} (h1 : BitSub a c) (h2 : BitSub b c) :
    BitSub (a ||| b) c := by
  intro i hi
  rw [Nat.testBit_lor] at hi
  simp only [Bool.or_eq_true] at hi
  rcases hi with h | h
  · exact h1 i h
  · exact h2 i h

/-- Union is monotone in both operands. -/
theorem bitSub_lor_mono {a b a2 b2 : Nat} (h1 : BitSub a a2) (h2 : BitSub b b2) :
    BitSub (a ||| b) (a2 ||| b2) :=
  bitSub_lor_lub (bitSub_trans h1 (bitSub_lor_left a2 b2))
    (bitSub_trans h2 (bitSub_lor_right a2 b2))

/-- Intersecting with a superset is the identity. -/
theorem land_eq_self_of_bitSub {x y : Nat} (h : BitSub x y) : x &&& y = x := by
  apply Nat.eq_of_testBit_eq
  intro i
  rw [Nat.testBit_land]
  cases hx : x.testBit i
  · rfl
  · rw [h i hx]
    rfl

/-- Bitwise subsets are numerically smaller. -/
theorem bitSub_le {a b : Nat} (h : BitSub a b) : a ≤ b := by
  have he := land_eq_self_of_bitSub h
  calc a = a &&& b := he.symm
    _ ≤ b := Nat.and_le_right

/-- Popcount is monotone along the bitwise-subset order. -/
theorem pc_mono : ∀ b a : Nat, BitSub a b → pc a ≤ pc b := by
  intro b
  induction b using Nat.strong_induction_on with
  | _ b ih =>
    intro a hab
    rcases Nat.eq_zero_or_pos a with rfl | ha
    · rw [pc_zero]
      omega
    · have hb : b ≠ 0 := by
        intro h0
        subst h0
        have ha0 : a = 0 := by
          apply Nat.eq_of_testBit_eq
          intro i
          rw [Nat.zero_testBit]
          cases hai : a.testBit i
          · rfl
          · exact absurd (hab i hai) (by simp [Nat.zero_testBit])
        omega
      have hd : BitSub (a / 2) (b / 2) := by
        intro i hi
        rw [← Nat.testBit_succ] at hi ⊢
        exact hab (i + 1) hi
      have hm2 : a % 2 ≤ b % 2 := by
        have hma := mod_two_of_testBit a
        have hmb := mod_two_of_testBit b
        by_cases hta : a.testBit 0 = true
        · have htb := hab 0 hta
          rw [hma, hmb, if_pos hta, if_pos htb]
        · rw [hma, if_neg hta]
          omega
      have hpa : pc a = pc (a / 2) + a % 2 := by rw [pc_def, if_neg (by omega)]
      have hpb : pc b = pc (b / 2) + b % 2 := by rw [pc_def, if_neg hb]
      have := ih (b / 2) (by omega) (a / 2) hd
      omega

/-- The bit mask `M64` has exactly the bits below 64. -/
theorem M64_testBit {i : Nat} (h : i < 64) : M64.testBit i = true := by
  unfold M64
  rw [Nat.testBit_two_pow_sub_one]
  simp [h]

/-- `M64` is a u64 value. -/
theorem M64_lt : M64 < 2 ^ 64 := by
  unfold M64
  omega

/-- Truncated left shifts are u64 values. -/
theorem shl_lt (x n : Nat) : shl x n < 2 ^ 64 :=
  lt_of_le_of_lt Nat.and_le_right M64_lt

/-- Intersection with a u64 value is a u64 value. -/
theorem land_lt_of_right {y : Nat} (x : Nat) (hy : y < 2 ^ 64) : x &&& y < 2 ^ 64 :=
  lt_of_le_of_lt Nat.and_le_right hy

/-- Right shifts do not grow. -/
theorem shr_le (x n : Nat) : shr x n ≤ x := by
  unfold shr
  rw [Nat.shiftRight_eq_div_pow]
  exact Nat.div_le_self _ _

/-- Widening an intersection to the full 64-bit mask. -/
theorem bitSub_land_to_M64 {x : Nat} (a : Nat) (hx : x < 2 ^ 64) :
    BitSub (x &&& a) (x &&& M64) := by
  intro i hi
  rw [Nat.testBit_land] at hi
  simp only [Bool.and_eq_true] at hi
  obtain ⟨h1, _⟩ := hi
  rw [Nat.testBit_land, h1, M64_testBit (testBit_lt_64 hx h1)]
  rfl

/-- A u64 value embeds in its own 64-bit truncation. -/
theorem bitSub_to_land_M64 {x : Nat} (hx : x < 2 ^ 64) : BitSub x (x &&& M64) := by
  intro i hi
  rw [Nat.testBit_land, hi, M64_testBit (testBit_lt_64 hx hi)]
  rfl

/-- Disjointness from two values gives disjointness from their union. -/
theorem land_lor_zero {x a b : Nat} (h1 : x &&& a = 0) (h2 : x &&& b = 0) :
    x &&& (a ||| b) = 0 := by
  apply Nat.eq_of_testBit_eq
  intro i
  have e1 := congrArg (fun t => t.testBit i) h1
  have e2 := congrArg (fun t => t.testBit i) h2
  simp only [Nat.testBit_land, Nat.zero_testBit] at e1 e2
  simp only [Nat.testBit_land, Nat.testBit_lor, Nat.zero_testBit]
  cases hx : x.testBit i <;> cases ha : a.testBit i <;> cases hb : b.testBit i <;>
    simp_all

/-- Sum, popcount and disjointness of a pairwise-disjoint list of u64
values. -/
theorem sum_disjoint_props :
    ∀ l : List Nat, l.Pairwise (fun a b => a &&& b = 0) → (∀ x ∈ l, x < 2 ^ 64) →
      l.sum < 2 ^ 64 ∧ pc l.sum = (l.map pc).sum ∧
        ∀ y : Nat, (∀ x ∈ l, y &&& x = 0) → y &&& l.sum = 0 := by
  intro l
  induction l with
  | nil =>
    intro _ _
    refine ⟨by norm_num, by simp [pc_zero], ?_⟩
    intro y _
    simp
  | cons a t ih =>
    intro hpw hlt
    obtain ⟨hat, hpt⟩ := List.pairwise_cons.mp hpw
    obtain ⟨hs64, hpcs, hdis⟩ := ih hpt (fun x hx => hlt x (List.mem_cons_of_mem a hx))
    have hds : a &&& t.sum = 0 := hdis a hat
    have hadd : a + t.sum = a ||| t.sum := add_eq_lor_of_disjoint a t.sum hds
    have ha64 : a < 2 ^ 64 := hlt a (List.mem_cons_self a t)
    refine ⟨?_, ?_, ?_⟩
    · rw [List.sum_cons, hadd]
      exact Nat.or_lt_two_pow ha64 hs64
    · rw [List.sum_cons, hadd, pc_or_disjoint a t.sum hds, List.map_cons, List.sum_cons, hpcs]
    · intro y hy
      rw [List.sum_cons, hadd]
      exact land_lor_zero (hy a (List.mem_cons_self a t))
        (hdis y (fun x hx => hy x (List.mem_cons_of_mem a hx)))

/-- A u64 value is a bitwise subset of `M64`. -/
theorem bitSub_M64_of_lt {x : Nat} (hx : x < 2 ^ 64) : BitSub x M64 :=
  fun _ hi => M64_testBit (testBit_lt_64 hx hi)

/-!  Claim C10: the fuelled log2 stays on the board. -/

/-- The fuelled floor log2 of a value below `2 ^ f` is below `f`. -/
theorem log2w_lt : ∀ (f x : Nat), 1 ≤ f → x < 2 ^ f → log2w f x < f := by
  intro f
  induction f with
  | zero => intro x h1 _; omega
  | succ f ih =>
    intro x _ hx
    by_cases hx1 : x ≤ 1
    · simp only [log2w, if_pos hx1]
      omega
    · have hf1 : 1 ≤ f := by
        rcases Nat.eq_zero_or_pos f with rfl | h
        · norm_num at hx
          omega
        · exact h
      have hdiv : x >>> 1 < 2 ^ f := by
        have hs : x >>> 1 = x / 2 := Nat.shiftRight_one x
        have hp : 2 ^ (f + 1) = 2 ^ f * 2 := by rw [pow_succ]
        omega
      have := ih (x >>> 1) hf1 hdiv
      simp only [log2w, if_neg hx1]
      omega

/-- The bit offset of a u64 value is a board square index. -/
theorem offsetOf_lt (x : Nat) (hx : x < 2 ^ 64) : offsetOf x < 64 :=
  log2w_lt 64 x (by omega) hx

/-- All indices listed by `single_idx` of a u64 value are board squares. -/
theorem single_idx_mem_lt {n : Nat} (hn : n < 2 ^ 64) :
    ∀ i ∈ ChessC.single_idx n, i < 64 := by
  intro i hi
  unfold ChessC.single_idx at hi
  obtain ⟨x, hx, rfl⟩ := List.mem_map.mp hi
  have hle : x ≤ n := single_squares_aux_le 64 n x hx
  exact offsetOf_lt x (lt_of_le_of_lt hle hn)

/-!  Claim C10: move-pattern generators only shrink under blockers. -/

/-- The knight pattern with blockers is inside the unobstructed pattern. -/
theorem knight_mono (sp our e e2 : Nat) : BitSub (knight sp our e) (knight sp 0 e2) := by
  unfold knight
  rw [show compl 0 = M64 from by decide]
  refine bitSub_land_to_M64 _ ?_
  have h1 : NOT_A_RANK < 2 ^ 64 := by decide
  have h2 : NOT_H_RANK < 2 ^ 64 := by decide
  have h3 : NOT_G_RANK < 2 ^ 64 := by decide
  have h4 : NOT_B_RANK < 2 ^ 64 := by decide
  refine Nat.or_lt_two_pow ?_ (land_lt_of_right _ h4)
  refine Nat.or_lt_two_pow ?_ (land_lt_of_right _ h3)
  refine Nat.or_lt_two_pow ?_ (land_lt_of_right _ h4)
  refine Nat.or_lt_two_pow ?_ (land_lt_of_right _ h3)
  refine Nat.or_lt_two_pow ?_ (land_lt_of_right _ h1)
  refine Nat.or_lt_two_pow ?_ (land_lt_of_right _ h2)
  exact Nat.or_lt_two_pow (land_lt_of_right _ h1) (land_lt_of_right _ h2)

/-- The king pattern with blockers is inside the unobstructed pattern. -/
theorem king_mono (sp our e e2 : Nat) (hsp : sp < 2 ^ 64) :
    BitSub (king sp our e) (king sp 0 e2) := by
  unfold king
  rw [show compl 0 = M64 from by decide]
  refine bitSub_land_to_M64 _ ?_
  have h1 : NOT_A_RANK < 2 ^ 64 := by decide
  have h2 : NOT_H_RANK < 2 ^ 64 := by decide
  refine Nat.or_lt_two_pow ?_ (lt_of_le_of_lt (shr_le sp 8) hsp)
  refine Nat.or_lt_two_pow ?_ (land_lt_of_right _ h1)
  refine Nat.or_lt_two_pow ?_ (land_lt_of_right _ h1)
  refine Nat.or_lt_two_pow ?_ (land_lt_of_right _ h1)
  refine Nat.or_lt_two_pow ?_ (shl_lt sp 8)
  refine Nat.or_lt_two_pow ?_ (land_lt_of_right _ h2)
  exact Nat.or_lt_two_pow (land_lt_of_right _ h2) (land_lt_of_right _ h2)

/-- The white pawn pattern with blockers is inside the unobstructed pattern
(with `u64::MAX` as capture targets). -/
theorem white_pawn_mono (sp b e : Nat) :
    BitSub (white_pawn sp b e) (white_pawn sp 0 M64) := by
  unfold white_pawn white_pawn_attack white_pawn_quiet_moves
  have hd : (shl sp 7 &&& NOT_A_RANK) ||| (shl sp 9 &&& NOT_H_RANK) < 2 ^ 64 :=
    Nat.or_lt_two_pow (land_lt_of_right _ (by decide)) (land_lt_of_right _ (by decide))
  refine bitSub_lor_mono (bitSub_land_to_M64 e hd) ?_
  by_cases hrow : sp &&& SECOND_ROW ≠ 0
  · rw [if_pos hrow, if_pos hrow, show shl 0 8 = 0 from by decide,
      show compl 0 = M64 from by decide]
    refine bitSub_lor_mono (bitSub_land_to_M64 (compl b) (shl_lt sp 8)) ?_
    refine bitSub_trans (bitSub_land_left _ _) ?_
    refine bitSub_trans (bitSub_land_to_M64 (compl b) (shl_lt sp 16)) ?_
    exact bitSub_to_land_M64 (land_lt_of_right _ M64_lt)
  · rw [if_neg hrow, if_neg hrow, show compl 0 = M64 from by decide]
    exact bitSub_land_to_M64 (compl b) (shl_lt sp 8)

/-- The black pawn pattern with blockers is inside the unobstructed pattern. -/
theorem black_pawn_mono (sp b e : Nat) (hsp : sp < 2 ^ 64) :
    BitSub (black_pawn sp b e) (black_pawn sp 0 M64) := by
  unfold black_pawn black_pawn_attack black_pawn_quiet_moves
  have hd : (shr sp 7 &&& NOT_H_RANK) ||| (shr sp 9 &&& NOT_A_RANK) < 2 ^ 64 :=
    Nat.or_lt_two_pow (land_lt_of_right _ (by decide)) (land_lt_of_right _ (by decide))
  refine bitSub_lor_mono (bitSub_land_to_M64 e hd) ?_
  have hs8 : shr sp 8 < 2 ^ 64 := lt_of_le_of_lt (shr_le sp 8) hsp
  have hs16 : shr sp 16 < 2 ^ 64 := lt_of_le_of_lt (shr_le sp 16) hsp
  by_cases hrow : sp &&& SEVENTH_ROW ≠ 0
  · rw [if_pos hrow, if_pos hrow, show shr (0 : Nat) 8 = 0 from by decide,
      show compl 0 = M64 from by decide]
    refine bitSub_lor_mono (bitSub_land_to_M64 (compl b) hs8) ?_
    refine bitSub_trans (bitSub_land_left _ _) ?_
    refine bitSub_trans (bitSub_land_to_M64 (compl b) hs16) ?_
    exact bitSub_to_land_M64 (land_lt_of_right _ M64_lt)
  · rw [if_neg hrow, if_neg hrow, show compl 0 = M64 from by decide]
    exact bitSub_land_to_M64 (compl b) hs8

/-- A blocked sliding ray is inside the unobstructed ray. -/
theorem rayAux_mono (bl en : Nat) (dr dc : Int) :
    ∀ (f : Nat) (r c : Int), BitSub (rayAux bl en dr dc f r c) (rayAux 0 0 dr dc f r c) := by
  intro f
  induction f with
  | zero =>
    intro r c
    exact bitSub_zero _
  | succ f ih =>
    intro r c
    simp only [rayAux]
    by_cases hb : 0 ≤ r ∧ r < 8 ∧ 0 ≤ c ∧ c < 8
    · rw [if_pos hb, if_pos hb]
      have h0 : ¬(shl 1 (r * 8 + c).toNat &&& (0 : Nat) ≠ 0) := by simp
      rw [if_neg h0, if_neg h0]
      by_cases h1 : shl 1 (r * 8 + c).toNat &&& bl ≠ 0
      · rw [if_pos h1]
        exact bitSub_zero _
      · rw [if_neg h1]
        by_cases h2 : shl 1 (r * 8 + c).toNat &&& en ≠ 0
        · rw [if_pos h2]
          exact bitSub_lor_left _ _
        · rw [if_neg h2]
          exact bitSub_lor_mono (fun i hi => hi) (ih (r + dr) (c + dc))
    · rw [if_neg hb, if_neg hb]
      exact bitSub_zero _

/-- A blocked ray from a square is inside the unobstructed ray. -/
theorem ray_mono (bl en : Nat) (row col dr dc : Int) :
    BitSub (ray bl en row col dr dc) (ray 0 0 row col dr dc) :=
  rayAux_mono bl en dr dc 8 (row + dr) (col + dc)

/-- The bishop pattern with blockers is inside the unobstructed pattern. -/
theorem bishop_mono (sp bl en : Nat) : BitSub (bishop sp bl en) (bishop sp 0 0) := by
  unfold bishop
  exact bitSub_lor_mono
    (bitSub_lor_mono (bitSub_lor_mono (ray_mono _ _ _ _ _ _) (ray_mono _ _ _ _ _ _))
      (ray_mono _ _ _ _ _ _))
    (ray_mono _ _ _ _ _ _)

/-- The rook pattern with blockers is inside the unobstructed pattern. -/
theorem rook_mono (sp bl en : Nat) : BitSub (rook sp bl en) (rook sp 0 0) := by
  unfold rook
  exact bitSub_lor_mono
    (bitSub_lor_mono (bitSub_lor_mono (ray_mono _ _ _ _ _ _) (ray_mono _ _ _ _ _ _))
      (ray_mono _ _ _ _ _ _))
    (ray_mono _ _ _ _ _ _)

/-- The queen pattern with blockers is inside the unobstructed pattern. -/
theorem queen_mono (sp bl en : Nat) : BitSub (queen sp bl en) (queen sp 0 0) := by
  unfold queen
  exact bitSub_lor_mono (rook_mono sp bl en) (bishop_mono sp bl en)

/-!  Claim C10: per-square pattern sizes, checked on all 64 squares. -/

/-- An unobstructed knight reaches at most 27 squares (in fact 8). -/
theorem knight_full_bound :
    ∀ i : Fin 64, knight (1 <<< i.1) 0 0 < 2 ^ 64 ∧
      (single_squares (knight (1 <<< i.1) 0 0)).length ≤ 27 := by decide

/-- An unobstructed king reaches at most 27 squares (in fact 8). -/
theorem king_full_bound :
    ∀ i : Fin 64, king (1 <<< i.1) 0 0 < 2 ^ 64 ∧
      (single_squares (king (1 <<< i.1) 0 0)).length ≤ 27 := by decide

/-- An unobstructed bishop reaches at most 27 squares (in fact 13). -/
theorem bishop_full_bound :
    ∀ i : Fin 64, bishop (1 <<< i.1) 0 0 < 2 ^ 64 ∧
      (single_squares (bishop (1 <<< i.1) 0 0)).length ≤ 27 := by decide

/-- An unobstructed rook reaches at most 27 squares (in fact 14). -/
theorem rook_full_bound :
    ∀ i : Fin 64, rook (1 <<< i.1) 0 0 < 2 ^ 64 ∧
      (single_squares (rook (1 <<< i.1) 0 0)).length ≤ 27 := by decide

/-- An unobstructed queen reaches at most 27 squares. -/
theorem queen_full_bound :
    ∀ i : Fin 64, queen (1 <<< i.1) 0 0 < 2 ^ 64 ∧
      (single_squares (queen (1 <<< i.1) 0 0)).length ≤ 27 := by decide

/-- An unobstructed white pawn reaches at most 4 squares. -/
theorem white_pawn_full_bound :
    ∀ i : Fin 64, white_pawn (1 <<< i.1) 0 M64 < 2 ^ 64 ∧
      (single_squares (white_pawn (1 <<< i.1) 0 M64)).length ≤ 4 := by decide

/-- An unobstructed black pawn reaches at most 4 squares. -/
theorem black_pawn_full_bound :
    ∀ i : Fin 64, black_pawn (1 <<< i.1) 0 M64 < 2 ^ 64 ∧
      (single_squares (black_pawn (1 <<< i.1) 0 M64)).length ≤ 4 := by decide

/-!  Claim C10: per-square, per-piece and per-board push counts. -/

/-- Popcount bound through a bitwise superset whose size was checked. -/
theorem pc_le_of_bitSub_full {a full n : Nat} (hsub : BitSub a full) (hlt : full < 2 ^ 64)
    (hlen : (single_squares full).length ≤ n) : pc a ≤ n := by
  have h64 : pc full ≤ 64 := pc_le 64 full hlt
  have h1 := single_squares_length full h64
  have h2 := pc_mono full a hsub
  omega

/-- The number of destination squares of one piece on one square. -/
theorem pc_avail_le (b : Bitboards) (p : Piece) (idx : Nat) (hidx : idx < 64) :
    pc (ChessC.available_moves b p idx) ≤ if p.kind = Kind.Pawn then 4 else 27 := by
  have hsp : (1 : Nat) <<< idx < 2 ^ 64 := by
    rw [Nat.one_shiftLeft]
    exact Nat.pow_lt_pow_right (by omega) hidx
  obtain ⟨pcol, pk⟩ := p
  unfold ChessC.available_moves
  dsimp only
  cases pk with
  | Pawn =>
    rw [if_pos rfl]
    cases pcol with
    | White =>
      obtain ⟨hflt, hflen⟩ := white_pawn_full_bound ⟨idx, hidx⟩
      exact pc_le_of_bitSub_full (white_pawn_mono _ _ _) hflt hflen
    | Black =>
      obtain ⟨hflt, hflen⟩ := black_pawn_full_bound ⟨idx, hidx⟩
      exact pc_le_of_bitSub_full (black_pawn_mono _ _ _ hsp) hflt hflen
  | Knight =>
    rw [if_neg (by simp)]
    obtain ⟨hflt, hflen⟩ := knight_full_bound ⟨idx, hidx⟩
    exact pc_le_of_bitSub_full (knight_mono _ _ _ _) hflt hflen
  | Bishop =>
    rw [if_neg (by simp)]
    obtain ⟨hflt, hflen⟩ := bishop_full_bound ⟨idx, hidx⟩
    exact pc_le_of_bitSub_full (bishop_mono _ _ _) hflt hflen
  | Rook =>
    rw [if_neg (by simp)]
    obtain ⟨hflt, hflen⟩ := rook_full_bound ⟨idx, hidx⟩
    exact pc_le_of_bitSub_full (rook_mono _ _ _) hflt hflen
  | Queen =>
    rw [if_neg (by simp)]
    obtain ⟨hflt, hflen⟩ := queen_full_bound ⟨idx, hidx⟩
    exact pc_le_of_bitSub_full (queen_mono _ _ _) hflt hflen
  | King =>
    rw [if_neg (by simp)]
    obtain ⟨hflt, hflen⟩ := king_full_bound ⟨idx, hidx⟩
    exact pc_le_of_bitSub_full (king_mono _ _ _ _ hsp) hflt hflen

/-- A list of values bounded by `c` sums to at most `c` per entry. -/
theorem sum_le_mul {c : Nat} : ∀ l : List Nat, (∀ x ∈ l, x ≤ c) → l.sum ≤ l.length * c := by
  intro l
  induction l with
  | nil => intro _; simp
  | cons a t ih =>
    intro h
    have ht := ih (fun x hx => h x (List.mem_cons_of_mem a hx))
    have ha := h a (List.mem_cons_self a t)
    simp only [List.sum_cons, List.length_cons]
    have hm : (t.length + 1) * c = t.length * c + c := by ring
    omega

/-- One candidate destination yields at most four pushes for a pawn and one
otherwise. -/
theorem candidate_of_len (b : ChessC.BoardC) (oc : Bool) (p : Piece) (idx toSq : Nat) :
    (ChessC.candidate_of b oc p idx toSq).length ≤ if p.kind = Kind.Pawn then 4 else 1 := by
  unfold ChessC.candidate_of
  dsimp only
  by_cases hk : p.kind = Kind.Pawn
  · rw [if_pos hk]
    split_ifs <;> simp [ChessC.promo_candidates]
  · rw [if_neg hk]
    have hnp : ChessC.MoveC.is_promotion ⟨p, ChessC.MoveKind.standard idx toSq⟩ = false := by
      unfold ChessC.MoveC.is_promotion
      simp [hk]
    split_ifs with h1 h2 h3 h4
    · simp
    · rw [hnp] at h2
      simp at h2
    · simp
    · simp
    · simp

/-- All pushes of one piece from one square: at most 27. -/
theorem square_pushes_le (b : ChessC.BoardC) (oc : Bool) (p : Piece) (idx : Nat)
    (hidx : idx < 64) :
    ((ChessC.single_idx (ChessC.available_moves b.position p idx)).map
      (fun toSq => (ChessC.candidate_of b oc p idx toSq).length)).sum ≤ 27 := by
  have hpc := pc_avail_le b.position p idx hidx
  have h64 : pc (ChessC.available_moves b.position p idx) ≤ 64 := by
    by_cases hk : p.kind = Kind.Pawn
    · rw [if_pos hk] at hpc
      omega
    · rw [if_neg hk] at hpc
      omega
  have hlen := single_idx_length (ChessC.available_moves b.position p idx) h64
  have hb : ∀ x ∈ (ChessC.single_idx (ChessC.available_moves b.position p idx)).map
      (fun toSq => (ChessC.candidate_of b oc p idx toSq).length),
      x ≤ if p.kind = Kind.Pawn then 4 else 1 := by
    intro x hx
    obtain ⟨t, _, rfl⟩ := List.mem_map.mp hx
    exact candidate_of_len b oc p idx t
  have hs := sum_le_mul _ hb
  rw [List.length_map, hlen] at hs
  by_cases hk : p.kind = Kind.Pawn
  · rw [if_pos hk] at hpc
    rw [if_pos hk] at hs
    omega
  · rw [if_neg hk] at hpc
    rw [if_neg hk] at hs
    omega

/-- All pushes of one piece kind: at most 27 per piece on the board. -/
theorem piece_pushes_le (b : ChessC.BoardC) (oc : Bool) (p : Piece)
    (hget : b.position.get p < 2 ^ 64) :
    ((ChessC.single_idx (b.position.get p)).flatMap
      (fun idx => (ChessC.single_idx (ChessC.available_moves b.position p idx)).flatMap
        (fun toSq => ChessC.candidate_of b oc p idx toSq))).length ≤
      27 * pc (b.position.get p) := by
  rw [List.length_flatMap]
  simp only [Function.comp_def]
  have hmem := single_idx_mem_lt hget
  have hb : ∀ x ∈ (ChessC.single_idx (b.position.get p)).map
      (fun idx => ((ChessC.single_idx (ChessC.available_moves b.position p idx)).flatMap
        (fun toSq => ChessC.candidate_of b oc p idx toSq)).length),
      x ≤ 27 := by
    intro x hx
    obtain ⟨idx, hidx, rfl⟩ := List.mem_map.mp hx
    rw [List.length_flatMap]
    exact square_pushes_le b oc p idx (hmem idx hidx)
  have hs := sum_le_mul _ hb
  rw [List.length_map, single_idx_length (b.position.get p) (pc_le 64 _ hget)] at hs
  omega

/-- At most two castle candidates are appended. -/
theorem castle_candidates_len (b : ChessC.BoardC) (oc : Bool) :
    (ChessC.castle_candidates b oc).length ≤ 2 := by
  unfold ChessC.castle_candidates
  split
  · rcases hkq : ChessC.available_castling_moves b b.white_can_castle b.black_can_castle
      with ⟨k, q⟩
    clear hkq
    cases k <;> cases q <;> simp
  · simp

/-- Folding the accumulator sum of `sum64` is the list sum. -/
theorem foldl_add_eq_sum : ∀ (l : List Nat) (n : Nat),
    l.foldl (fun a b => a + b) n = n + l.sum := by
  intro l
  induction l with
  | nil => intro n; simp
  | cons a t ih =>
    intro n
    rw [List.foldl_cons, ih (n + a), List.sum_cons]
    omega

/-- Under the board invariants, the side-to-move occupancy is a u64 value
whose popcount is the number of that side's pieces. -/
theorem occupied_by_pc (b : Bitboards) (c : Color) (hd : disjointBB b) (hw : wf64 b) :
    b.squares_occupied_by_color c < 2 ^ 64 ∧
      pc (b.squares_occupied_by_color c) =
        ((pieceList.filter (fun p => p.color = c)).map (fun p => pc (b.get p))).sum := by
  have hpw : ((pieceList.filter (fun p => p.color = c)).map (fun p => b.get p)).Pairwise
      (fun x y => x &&& y = 0) := by
    rw [List.pairwise_map]
    exact (List.Pairwise.sublist (List.filter_sublist pieceList) hd)
  have hlt : ∀ x ∈ (pieceList.filter (fun p => p.color = c)).map (fun p => b.get p),
      x < 2 ^ 64 := by
    intro x hx
    obtain ⟨p, hp, rfl⟩ := List.mem_map.mp hx
    exact hw p (List.mem_of_mem_filter hp)
  obtain ⟨hs64, hpcs, _⟩ := sum_disjoint_props _ hpw hlt
  have he : b.squares_occupied_by_color c =
      ((pieceList.filter (fun p => p.color = c)).map (fun p => b.get p)).sum := by
    unfold Bitboards.squares_occupied_by_color sum64
    rw [foldl_add_eq_sum]
    rw [Nat.zero_add]
    exact land_eq_self_of_bitSub (bitSub_M64_of_lt hs64)
  rw [he]
  refine ⟨hs64, ?_⟩
  rw [hpcs, List.map_map]
  rfl

/-- Bound on the full push sequence of `Board::generate_moves`. -/
theorem candidates_len_le (b : ChessC.BoardC) (oc : Bool)
    (hd : disjointBB b.position) (hw : wf64 b.position)
    (h9 : pc (b.position.squares_occupied_by_color b.turn) ≤ 9) :
    (ChessC.candidates b oc).length ≤ 245 := by
  obtain ⟨hocc64, hoccpc⟩ := occupied_by_pc b.position b.turn hd hw
  unfold ChessC.candidates
  rw [List.length_append, List.length_flatMap]
  simp only [Function.comp_def]
  have hcast := castle_candidates_len b oc
  have hmono : ∀ p ∈ pieceList.filter (fun p => p.color = b.turn),
      ((ChessC.single_idx (b.position.get p)).flatMap
        (fun idx => (ChessC.single_idx (ChessC.available_moves b.position p idx)).flatMap
          (fun toSq => ChessC.candidate_of b oc p idx toSq))).length ≤
        27 * pc (b.position.get p) := by
    intro p hp
    exact piece_pushes_le b oc p (hw p (List.mem_of_mem_filter hp))
  have hsum :
      ((pieceList.filter (fun p => p.color = b.turn)).map
        (fun p => ((ChessC.single_idx (b.position.get p)).flatMap
          (fun idx => (ChessC.single_idx (ChessC.available_moves b.position p idx)).flatMap
            (fun toSq => ChessC.candidate_of b oc p idx toSq))).length)).sum ≤
      ((pieceList.filter (fun p => p.color = b.turn)).map
        (fun p => 27 * pc (b.position.get p))).sum :=
    List.sum_le_sum hmono
  rw [List.sum_map_mul_left] at hsum
  rw [← hoccpc] at hsum
  omega

/-- Folding `Moves::push` over a short enough candidate list succeeds and
collects the whole list. -/
theorem foldlM_push_some :
    ∀ (l init : List (ChessC.MoveC × Int)), init.length + l.length ≤ 255 →
      List.foldlM (fun acc me => ChessC.moves_push acc me.1 me.2) init l =
        some (init ++ l) := by
  intro l
  induction l with
  | nil =>
    intro init _
    simp
  | cons me t ih =>
    intro init h
    rw [List.foldlM_cons]
    have hlt : init.length < 255 := by
      simp only [List.length_cons] at h
      omega
    have hp : ChessC.moves_push init me.1 me.2 = some (init ++ [me]) := by
      unfold ChessC.moves_push
      rw [if_pos hlt]
    rw [hp]
    have hlen2 : (init ++ [me]).length + t.length ≤ 255 := by
      simp only [List.length_append, List.length_cons, List.length_nil] at h ⊢
      omega
    have ht := ih (init ++ [me]) hlen2
    simp only [Option.bind_eq_bind, Option.some_bind, ht]
    simp

/-- C10 (amended): `Moves::push` writes into a fixed 255-slot array at index
`len` with no bounds check, and the bound does NOT hold for every board
satisfying only the one-piece-per-square invariant (see the counterexample
with 22 white pieces and 269 pushes).  It does hold whenever the side to move
has at most 9 pieces: each piece contributes at most 27 pushes (at most 27
destination squares for a queen, and at most 4 destinations × 4 promotion
variants for a pawn) and castling at most 2 more, so `Board::generate_moves`
performs at most 9 · 27 + 2 = 245 ≤ 255 pushes and the out-of-bounds panic is
unreachable. -/
theorem C10_push_bound (b : ChessC.BoardC) (oc : Bool)
    (hd : disjointBB b.position) (hw : wf64 b.position)
    (h9 : count_bits (b.position.squares_occupied_by_color b.turn) ≤ 9) :
    ∃ l, ChessC.generate_moves b oc = some l ∧ l.length ≤ 255 := by
  obtain ⟨hocc64, _⟩ := occupied_by_pc b.position b.turn hd hw
  have hpc9 : pc (b.position.squares_occupied_by_color b.turn) ≤ 9 := by
    rw [count_bits_eq_pc _ (pc_le 64 _ hocc64)] at h9
    exact_mod_cast h9
  have hlen := candidates_len_le b oc hd hw hpc9
  refine ⟨ChessC.candidates b oc, ?_, by omega⟩
  unfold ChessC.generate_moves
  have hf := foldlM_push_some (ChessC.candidates b oc) []
    (by simp only [List.length_nil]; omega)
  simpa using hf

set_option maxHeartbeats 4000000 in
/-- Counterexample for C10 as stated: `bBig` (21 white queens and a bishop
against the six black piece kinds) satisfies the one-piece-per-square
invariant, yet `Board::generate_moves` reaches the 256th push — the
out-of-bounds write — so the embedding returns `none`. -/
theorem C10_counterexample :
    disjointBB ChessC.bBig.position ∧ wf64 ChessC.bBig.position ∧
      ChessC.generate_moves ChessC.bBig false = none :=
  ⟨by decide, by decide, by rfl⟩

/-- Witness for the amended C10 on `bBigBlack` (Black, six pieces, to move on
the counterexample position). -/
theorem C10_push_bound_witness :
    ∃ l, ChessC.generate_moves ChessC.bBigBlack false = some l ∧ l.length ≤ 255 :=
  C10_push_bound ChessC.bBigBlack false (by decide) (by decide) (by decide)

end Chess








